import Mathlib

/-!
Verification of the `datastore` library (`datastore/store.py`): a document
database on top of a relational database, with materialized secondary-index
views maintained transactionally with every write.

The embedding models documents as association lists of string keys to
JSON-compatible values, the primary table as a list of rows, each view as its
map function together with its materialized table, and the SQL statements the
source issues (`select`, `insert`, `update`, `delete ... where id in ...`) as
the corresponding list operations.
-/

namespace DatastoreModel

/-- JSON-compatible values: the payload data model of the store
(`data` column, view columns, filter values). Numbers are modelled as
integers. -/
inductive JValue where
  | null : JValue
  | bool (b : Bool) : JValue
  | num (n : Int) : JValue
  | str (s : String) : JValue
  | arr (elems : List JValue) : JValue
  | obj (fields : List (String × JValue)) : JValue

mutual

/-- Decidable equality on `JValue` (written by hand: the nested occurrence of
`List` defeats the automatic derivation). -/
def decEqJ : (a b : JValue) → Decidable (a = b)
  | .null, .null => .isTrue rfl
  | .null, .bool _ => .isFalse (fun h => nomatch h)
  | .null, .num _ => .isFalse (fun h => nomatch h)
  | .null, .str _ => .isFalse (fun h => nomatch h)
  | .null, .arr _ => .isFalse (fun h => nomatch h)
  | .null, .obj _ => .isFalse (fun h => nomatch h)
  | .bool _, .null => .isFalse (fun h => nomatch h)
  | .bool a, .bool b =>
      match decEq a b with
      | .isTrue h => .isTrue (by rw [h])
      | .isFalse h => .isFalse (fun hh => h (by cases hh; rfl))
  | .bool _, .num _ => .isFalse (fun h => nomatch h)
  | .bool _, .str _ => .isFalse (fun h => nomatch h)
  | .bool _, .arr _ => .isFalse (fun h => nomatch h)
  | .bool _, .obj _ => .isFalse (fun h => nomatch h)
  | .num _, .null => .isFalse (fun h => nomatch h)
  | .num _, .bool _ => .isFalse (fun h => nomatch h)
  | .num a, .num b =>
      match decEq a b with
      | .isTrue h => .isTrue (by rw [h])
      | .isFalse h => .isFalse (fun hh => h (by cases hh; rfl))
  | .num _, .str _ => .isFalse (fun h => nomatch h)
  | .num _, .arr _ => .isFalse (fun h => nomatch h)
  | .num _, .obj _ => .isFalse (fun h => nomatch h)
  | .str _, .null => .isFalse (fun h => nomatch h)
  | .str _, .bool _ => .isFalse (fun h => nomatch h)
  | .str _, .num _ => .isFalse (fun h => nomatch h)
  | .str a, .str b =>
      match decEq a b with
      | .isTrue h => .isTrue (by rw [h])
      | .isFalse h => .isFalse (fun hh => h (by cases hh; rfl))
  | .str _, .arr _ => .isFalse (fun h => nomatch h)
  | .str _, .obj _ => .isFalse (fun h => nomatch h)
  | .arr _, .null => .isFalse (fun h => nomatch h)
  | .arr _, .bool _ => .isFalse (fun h => nomatch h)
  | .arr _, .num _ => .isFalse (fun h => nomatch h)
  | .arr _, .str _ => .isFalse (fun h => nomatch h)
  | .arr xs, .arr ys =>
      match decEqLJ xs ys with
      | .isTrue h => .isTrue (by rw [h])
      | .isFalse h => .isFalse (fun hh => h (by cases hh; rfl))
  | .arr _, .obj _ => .isFalse (fun h => nomatch h)
  | .obj _, .null => .isFalse (fun h => nomatch h)
  | .obj _, .bool _ => .isFalse (fun h => nomatch h)
  | .obj _, .num _ => .isFalse (fun h => nomatch h)
  | .obj _, .str _ => .isFalse (fun h => nomatch h)
  | .obj _, .arr _ => .isFalse (fun h => nomatch h)
  | .obj fs, .obj gs =>
      match decEqFJ fs gs with
      | .isTrue h => .isTrue (by rw [h])
      | .isFalse h => .isFalse (fun hh => h (by cases hh; rfl))

/-- Decidable equality on lists of `JValue`. -/
def decEqLJ : (xs ys : List JValue) → Decidable (xs = ys)
  | [], [] => .isTrue rfl
  | [], _ :: _ => .isFalse (fun h => nomatch h)
  | _ :: _, [] => .isFalse (fun h => nomatch h)
  | x :: xs, y :: ys =>
      match decEqJ x y with
      | .isFalse h => .isFalse (fun hh => h (by cases hh; rfl))
      | .isTrue h1 =>
          match decEqLJ xs ys with
          | .isTrue h2 => .isTrue (by rw [h1, h2])
          | .isFalse h2 => .isFalse (fun hh => h2 (by cases hh; rfl))

/-- Decidable equality on association lists of `String × JValue`. -/
def decEqFJ : (xs ys : List (String × JValue)) → Decidable (xs = ys)
  | [], [] => .isTrue rfl
  | [], _ :: _ => .isFalse (fun h => nomatch h)
  | _ :: _, [] => .isFalse (fun h => nomatch h)
  | (k1, v1) :: xs, (k2, v2) :: ys =>
      match decEq k1 k2 with
      | .isFalse h => .isFalse (fun hh => h (by cases hh; rfl))
      | .isTrue hk =>
          match decEqJ v1 v2 with
          | .isFalse h => .isFalse (fun hh => h (by cases hh; rfl))
          | .isTrue hv =>
              match decEqFJ xs ys with
              | .isTrue h2 => .isTrue (by rw [hk, hv, h2])
              | .isFalse h2 => .isFalse (fun hh => h2 (by cases hh; rfl))

end

instance : DecidableEq JValue := decEqJ

/-- A document: a Python dict with string keys, modelled as an association
list (insertion-ordered, no duplicate keys when built by `dinsert`). -/
abbrev Doc := List (String × JValue)

/-- `d[k] = v` on a Python dict: overwrite in place if the key is present,
append otherwise. -/
def dinsert (k : String) (v : JValue) : Doc → Doc
  | [] => [(k, v)]
  | (k1, v1) :: rest => if k1 = k then (k, v) :: rest else (k1, v1) :: dinsert k v rest

/-- `d.get(k)` on a Python dict. -/
def dlookup (k : String) : Doc → Option JValue
  | [] => none
  | (k1, v1) :: rest => if k1 = k then some v1 else dlookup k rest

/-- Generic dict assignment for association lists with arbitrary values
(used for the dicts of documents built by `get_many` and `put_many`). -/
def ainsert {α : Type} (k : String) (v : α) : List (String × α) → List (String × α)
  | [] => [(k, v)]
  | (k1, v1) :: rest => if k1 = k then (k, v) :: rest else (k1, v1) :: ainsert k v rest

/-- Generic dict lookup for association lists with arbitrary values. -/
def alookup {α : Type} (k : String) : List (String × α) → Option α
  | [] => none
  | (k1, v1) :: rest => if k1 = k then some v1 else alookup k rest

/-- A row of the primary table `store`:
`(id PK autoincrement, rev, updated timestamp, key unique, data)`.
The `updated` column is never written by the source, so it is `none` (SQL
NULL) in every row the operations produce; it is carried so that
`process_row` can inject it as `_updated`. -/
structure DRow where
  id : Nat
  rev : Option String
  updated : Option String
  key : String
  data : Doc
deriving DecidableEq

/-- A registered view: its map function (`View.map`, supplied by the
subclass, yielding index rows for a document) together with its
materialized table. The two system columns `_id`/`_key` live inside each
row dict. -/
structure ViewSt where
  map : Doc → List Doc
  table : List Doc

/-- The whole store: the primary table, the backend's autoincrement counter
for the `id` column, and the registered views (a name-keyed dict). -/
structure StoreState where
  table : List DRow
  nextId : Nat
  views : List (String × ViewSt)

/-- SQL NULL / a string, as the `JValue` injected for `_rev` / `_updated`. -/
def optStr : Option String → JValue
  | none => .null
  | some s => .str s

/-- `Datastore._process_row`: decode `row.data` and add the special keys
`_id`, `_rev`, `_key`, `_updated` from the row (in that order, lines 67-70). -/
def process_row (r : DRow) : Doc :=
  dinsert "_updated" (optStr r.updated)
    (dinsert "_key" (.str r.key)
      (dinsert "_rev" (optStr r.rev)
        (dinsert "_id" (.num r.id) r.data)))

/-- `t.select(t.c.key == key).execute().fetchone()`: first row matching the
key, in table order. -/
def findRow (table : List DRow) (k : String) : Option DRow :=
  table.find? (fun r => r.key == k)

/-- `Datastore.get`: the document with the given key, `None` (here `none`)
if no document is found. -/
def get (s : StoreState) (k : String) : Option Doc :=
  (findRow s.table k).map process_row

/-- `Datastore.get_many`: documents for the given keys as a dict; rows are
fetched with `key.in_(keys)` and the dict is built row by row. -/
def get_many (s : StoreState) (keys : List String) : List (String × Doc) :=
  (s.table.filter (fun r => keys.contains r.key)).foldl
    (fun acc r => ainsert r.key (process_row r) acc) []

/-- The augmented document `put` passes to the views:
`dict(doc, _id=_id, _key=key, _rev=None, _updated=None)` (line 104). -/
def putAugment (d : Doc) (i : Nat) (k : String) : Doc :=
  dinsert "_updated" .null
    (dinsert "_rev" .null
      (dinsert "_key" (.str k)
        (dinsert "_id" (.num i) d)))

/-- The augmented document `put_many` passes to the views:
`dict(mapping[row.key], _id=row.id, _key=row.key)` (line 157). Note that,
unlike `putAugment`, no `_rev` / `_updated` keys are added. -/
def manyAugment (d : Doc) (i : Nat) (k : String) : Doc :=
  dinsert "_key" (.str k) (dinsert "_id" (.num i) d)

/-- `View.map_docs`: map every document and set `row['_id'] = doc['_id']`,
`row['_key'] = doc['_key']` on each produced row. -/
def map_docs (m : Doc → List Doc) (docs : List Doc) : List Doc :=
  (docs.map (fun doc =>
    (m doc).map (fun row =>
      dinsert "_key" ((dlookup "_key" doc).getD .null)
        (dinsert "_id" ((dlookup "_id" doc).getD .null) row)))).flatten

/-- `View.update_view`: no-op on an empty batch; otherwise delete every
index row whose `_id` is in the batch's id set, then insert all rows
produced by `map_docs`. -/
def update_view (m : Doc → List Doc) (vtable : List Doc) (docs : List Doc) : List Doc :=
  if docs.isEmpty then vtable
  else
    let ids := docs.map (fun doc => (dlookup "_id" doc).getD .null)
    vtable.filter (fun row => !(ids.contains ((dlookup "_id" row).getD .null)))
      ++ map_docs m docs

/-- `Datastore.update_views`: run `update_view` on every registered view. -/
def update_views (docs : List Doc) (views : List (String × ViewSt)) :
    List (String × ViewSt) :=
  views.map (fun nv => (nv.1, ⟨nv.2.map, update_view nv.2.map nv.2.table docs⟩))

/-- The record `put` returns: `{"id": _id, "key": key, "rev": None,
"updated": None}` (line 107). -/
structure PutResult where
  id : Nat
  key : String
  rev : Option String
  updated : Option String
deriving DecidableEq

/-- `Datastore.put`: inside one transaction, select the row by key; if
absent insert `(key, data, rev="0")` (the backend assigns the id); if
present update `data` and `rev` of the rows matching the key; then update
every view with the single augmented document. -/
def put (s : StoreState) (k : String) (d : Doc) : StoreState × PutResult :=
  match findRow s.table k with
  | none =>
      let i := s.nextId
      let table1 := s.table ++ [⟨i, some "0", none, k, d⟩]
      let doc := putAugment d i k
      (⟨table1, i + 1, update_views [doc] s.views⟩, ⟨i, k, none, none⟩)
  | some row =>
      let table1 := s.table.map (fun r =>
        if r.key = k then ⟨r.id, some "0", r.updated, r.key, d⟩ else r)
      let doc := putAugment d row.id k
      (⟨table1, s.nextId, update_views [doc] s.views⟩, ⟨row.id, k, none, none⟩)

/-- The keys of the primary table. -/
def tableKeys (table : List DRow) : List String := table.map DRow.key

/-- `Datastore.put_many`: select the rows whose key is in the mapping;
partition the mapping's keys into old and new; one batched update for the
old keys and one batched insert for the new keys (each in mapping
iteration order); re-select `(id, key)` for all the mapping's keys; build
`new_mapping` (a dict keyed by row key, in select-result order) of
augmented documents; one view-maintenance pass over its values. -/
def put_many (s : StoreState) (mapping : List (String × Doc)) : StoreState :=
  let mkeys := mapping.map Prod.fst
  let rows := s.table.filter (fun r => mkeys.contains r.key)
  let oldKeys := rows.map DRow.key
  let updParams := mapping.filter (fun kd => oldKeys.contains kd.1)
  let table1 := updParams.foldl
    (fun tb kd => tb.map (fun r =>
      if r.key = kd.1 then ⟨r.id, some "0", r.updated, r.key, kd.2⟩ else r))
    s.table
  let newParams := mapping.filter (fun kd => !(oldKeys.contains kd.1))
  let table2 := table1 ++ newParams.enum.map
    (fun ikd => ⟨s.nextId + ikd.1, some "0", none, ikd.2.1, ikd.2.2⟩)
  let result := (table2.filter (fun r => mkeys.contains r.key)).map
    (fun r => (r.id, r.key))
  let newMapping := result.foldl
    (fun acc ik =>
      ainsert ik.2 (manyAugment ((alookup ik.2 mapping).getD []) ik.1 ik.2) acc)
    []
  let docs := newMapping.map Prod.snd
  ⟨table2, s.nextId + newParams.length, update_views docs s.views⟩

/-- A filter value passed as a keyword argument to `View.query`: a Python
list, a Python set, or a plain scalar/value. -/
inductive FilterVal where
  | jlist (vs : List JValue)
  | jset (vs : List JValue)
  | single (v : JValue)

/-- Whether a view row satisfies one keyword filter, per `View.query`
(lines 241-245): a value that `isinstance(value, list)` becomes
`column.in_(value)`; every other value (a set included) becomes
`column == value`.  A stored column value is a scalar `JValue` and never
equals a set, so the equality branch applied to a set matches no row. -/
def matchesFilter (row : Doc) (f : String × FilterVal) : Bool :=
  let cval := (dlookup f.1 row).getD .null
  match f.2 with
  | .jlist vs => vs.contains cval
  | .jset _ => false
  | .single v => cval == v

/-- `View.query` (without `include_docs`): select from the view's table,
adding one `where` clause per keyword filter; the clauses conjoin. -/
def viewQuery (vs : ViewSt) (filters : List (String × FilterVal)) : List Doc :=
  vs.table.filter (fun row => filters.all (fun f => matchesFilter row f))

/-- `Datastore.query`: `self.views.get(name)` followed by `v.query(...)`;
when the name is not registered, `get` returns `None` and the attribute
access on `None` raises `AttributeError`. -/
def dsQuery (s : StoreState) (name : String) (filters : List (String × FilterVal)) :
    Except String (List Doc) :=
  match s.views.find? (fun nv => nv.1 == name) with
  | none => .error "AttributeError"
  | some nv => .ok (viewQuery nv.2 filters)

/-! ### The view-consistency invariant and write sequences -/

/-- The `_id` column value of an index row. -/
def rowIdVal (row : Doc) : JValue := (dlookup "_id" row).getD .null

/-- The index rows a primary row ought to contribute to a view: the map
function applied to the document augmented with its `_id`/`_key` (the
"augmented document" of the spec), each produced row again augmented with
`_id`/`_key`. -/
def expectedRows (m : Doc → List Doc) (r : DRow) : List Doc :=
  (m (manyAugment r.data r.id r.key)).map
    (fun row => dinsert "_key" (.str r.key) (dinsert "_id" (.num r.id) row))

/-- All index rows the primary table ought to contribute to a view. -/
def expectedTable (m : Doc → List Doc) (table : List DRow) : List Doc :=
  (table.map (expectedRows m)).flatten

/-- The spec's view invariant: the view's table holds exactly (as a
multiset: no stale rows, no duplicates) the rows its map function
currently produces for the documents of the primary table. -/
def viewConsistent (m : Doc → List Doc) (vtable : List Doc) (table : List DRow) : Prop :=
  vtable.Perm (expectedTable m table)

/-- A map function that ignores the `_rev`/`_updated` keys that `put` (but
not `put_many`) adds to the documents it hands to the views. -/
def ruInsensitive (m : Doc → List Doc) : Prop :=
  ∀ d : Doc, m (dinsert "_updated" .null (dinsert "_rev" .null d)) = m d

/-- A write operation against the store. -/
inductive Op where
  | put (k : String) (d : Doc)
  | put_many (mapping : List (String × Doc))

/-- Execute one write operation. -/
def applyOp (s : StoreState) : Op → StoreState
  | .put k d => (put s k d).1
  | .put_many mapping => put_many s mapping

/-- Execute a sequence of write operations. -/
def runOps (s : StoreState) (ops : List Op) : StoreState :=
  ops.foldl applyOp s

/-- A `put_many` argument is a Python dict, so its keys are distinct. -/
def opValid : Op → Prop
  | .put _ _ => True
  | .put_many mapping => (mapping.map Prod.fst).Nodup

instance : ∀ op, Decidable (opValid op)
  | .put _ _ => inferInstanceAs (Decidable True)
  | .put_many _ => inferInstanceAs (Decidable (List.Nodup _))

/-- A fresh store over the given named map functions: empty primary table,
empty view tables, autoincrement counter at 1. -/
def initState (views0 : List (String × (Doc → List Doc))) : StoreState :=
  ⟨[], 1, views0.map (fun nm => (nm.1, ⟨nm.2, []⟩))⟩

/-- Well-formedness of the primary table, as the backend's constraints
guarantee it: unique keys (UNIQUE constraint), unique ids (primary key),
and every id below the autoincrement counter. -/
structure WFState (s : StoreState) : Prop where
  keysNodup : (s.table.map DRow.key).Nodup
  idsNodup : (s.table.map DRow.id).Nodup
  idsLt : ∀ r ∈ s.table, r.id < s.nextId

/-- Calling `put` once per mapping entry, in iteration order: the
sequential path the spec compares `put_many` against. -/
def seqPuts (s : StoreState) (mapping : List (String × Doc)) : StoreState :=
  mapping.foldl (fun st kd => (put st kd.1 kd.2).1) s

/-- The tables of the registered views, keyed by view name. -/
def viewTables (s : StoreState) : List (String × List Doc) :=
  s.views.map (fun nv => (nv.1, nv.2.table))

/-! ### Fallible layer: errors inside the transaction

`put`/`put_many` run their statements inside `with session.begin():`; an
exception raised by any step (in repository code, a view's map function —
codec and constraint failures live in the external backend) propagates out
of the `with` block, which rolls the transaction back.  The fallible model
mirrors `put`/`put_many` with map functions that may raise; the
transaction wrapper commits the new state on success and restores the
entry state on error. -/

/-- A view whose map function may raise. -/
structure ViewE where
  mapE : Doc → Except String (List Doc)
  table : List Doc

/-- Store state over fallible views. -/
structure StoreStateE where
  table : List DRow
  nextId : Nat
  views : List (String × ViewE)

/-- `View.map_docs` over a fallible map function: the generator is consumed
by `list(rows)` inside `update_view`, so the first raise aborts. -/
def map_docsE (m : Doc → Except String (List Doc)) (docs : List Doc) :
    Except String (List Doc) := do
  let rowss ← docs.mapM (fun doc => do
    let rows ← m doc
    pure (rows.map (fun row =>
      dinsert "_key" ((dlookup "_key" doc).getD .null)
        (dinsert "_id" ((dlookup "_id" doc).getD .null) row))))
  pure rowss.flatten

/-- `View.update_view` over a fallible map function. -/
def update_viewE (m : Doc → Except String (List Doc)) (vtable : List Doc)
    (docs : List Doc) : Except String (List Doc) :=
  if docs.isEmpty then .ok vtable
  else do
    let ids := docs.map (fun doc => (dlookup "_id" doc).getD .null)
    let rows ← map_docsE m docs
    pure (vtable.filter (fun row => !(ids.contains ((dlookup "_id" row).getD .null)))
      ++ rows)

/-- `Datastore.update_views` over fallible views. -/
def update_viewsE (docs : List Doc) (views : List (String × ViewE)) :
    Except String (List (String × ViewE)) := do
  views.mapM (fun nv => do
    let vt ← update_viewE nv.2.mapE nv.2.table docs
    pure (nv.1, ViewE.mk nv.2.mapE vt))

/-- `Datastore.put` body (the statements inside the transaction). -/
def putE (s : StoreStateE) (k : String) (d : Doc) :
    Except String (StoreStateE × PutResult) := do
  match findRow s.table k with
  | none =>
      let i := s.nextId
      let table1 := s.table ++ [⟨i, some "0", none, k, d⟩]
      let doc := putAugment d i k
      let views1 ← update_viewsE [doc] s.views
      pure (⟨table1, i + 1, views1⟩, ⟨i, k, none, none⟩)
  | some row =>
      let table1 := s.table.map (fun r =>
        if r.key = k then ⟨r.id, some "0", r.updated, r.key, d⟩ else r)
      let doc := putAugment d row.id k
      let views1 ← update_viewsE [doc] s.views
      pure (⟨table1, s.nextId, views1⟩, ⟨row.id, k, none, none⟩)

/-- `Datastore.put_many` body (the statements inside the transaction). -/
def put_manyE (s : StoreStateE) (mapping : List (String × Doc)) :
    Except String StoreStateE := do
  let mkeys := mapping.map Prod.fst
  let rows := s.table.filter (fun r => mkeys.contains r.key)
  let oldKeys := rows.map DRow.key
  let updParams := mapping.filter (fun kd => oldKeys.contains kd.1)
  let table1 := updParams.foldl
    (fun tb kd => tb.map (fun r =>
      if r.key = kd.1 then ⟨r.id, some "0", r.updated, r.key, kd.2⟩ else r))
    s.table
  let newParams := mapping.filter (fun kd => !(oldKeys.contains kd.1))
  let table2 := table1 ++ newParams.enum.map
    (fun ikd => ⟨s.nextId + ikd.1, some "0", none, ikd.2.1, ikd.2.2⟩)
  let result := (table2.filter (fun r => mkeys.contains r.key)).map
    (fun r => (r.id, r.key))
  let newMapping := result.foldl
    (fun acc ik =>
      ainsert ik.2 (manyAugment ((alookup ik.2 mapping).getD []) ik.1 ik.2) acc)
    []
  let docs := newMapping.map Prod.snd
  let views1 ← update_viewsE docs s.views
  pure ⟨table2, s.nextId + newParams.length, views1⟩

/-- The transaction wrapper around `put`: commit on success, roll back to
the entry state on any error. -/
def putTx (s : StoreStateE) (k : String) (d : Doc) :
    StoreStateE × Except String PutResult :=
  match putE s k d with
  | .ok (s2, res) => (s2, .ok res)
  | .error e => (s, .error e)

/-- The transaction wrapper around `put_many`. -/
def put_manyTx (s : StoreStateE) (mapping : List (String × Doc)) :
    StoreStateE × Except String Unit :=
  match put_manyE s mapping with
  | .ok s2 => (s2, .ok ())
  | .error e => (s, .error e)

/-! ### Codec: `JsonDataType`

`JsonDataType.process_bind_param` is `json.dumps` followed by
`zlib.compress`; `process_result_value` is `zlib.decompress` followed by
`json.loads`; `None` passes through both untouched.  The `json` and `zlib`
libraries are external collaborators (spec §1); they are modelled here by
an executable JSON printer/parser pair over `JValue` and an invertible
run-length compressor over character lists, each satisfying the documented
interface of the library it stands for. -/

/-- Decimal digit characters. -/
def digChar : Nat → Char
  | 0 => '0' | 1 => '1' | 2 => '2' | 3 => '3' | 4 => '4'
  | 5 => '5' | 6 => '6' | 7 => '7' | 8 => '8' | _ => '9'

/-- Is this character a decimal digit? -/
def isDig (c : Char) : Bool := 48 ≤ c.toNat && c.toNat ≤ 57

/-- Numeric value of a digit character. -/
def digVal (c : Char) : Nat := c.toNat - 48

/-- Decimal digits of a natural number, most significant first. -/
def natDigs (n : Nat) : List Char :=
  if n < 10 then [digChar n]
  else natDigs (n / 10) ++ [digChar (n % 10)]
decreasing_by exact Nat.div_lt_self (by omega) (by omega)

/-- Decimal notation of an integer. -/
def serInt (n : Int) : List Char :=
  if n < 0 then '-' :: natDigs n.natAbs else natDigs n.natAbs

/-- JSON escaping of one string character (the printer escapes exactly the
two characters that collide with the string syntax it emits). -/
def escChar (c : Char) : List Char :=
  if c = '"' ∨ c = '\\' then ['\\', c] else [c]

/-- JSON text of a string body (without the surrounding quotes). -/
def serStr (s : List Char) : List Char := (s.map escChar).flatten

mutual

/-- `json.dumps`: JSON text of a value. -/
def ser : JValue → List Char
  | .null => "null".data
  | .bool true => "true".data
  | .bool false => "false".data
  | .num n => serInt n
  | .str s => '"' :: (serStr s.data ++ ['"'])
  | .arr xs => '[' :: (serItemsAux xs ++ [']'])
  | .obj fs => '\x7b' :: (serFieldsAux fs ++ ['\x7d'])

/-- JSON text of the comma-separated elements of an array. -/
def serItemsAux : List JValue → List Char
  | [] => []
  | [x] => ser x
  | x :: xs => ser x ++ ',' :: serItemsAux xs

/-- JSON text of the comma-separated members of an object. -/
def serFieldsAux : List (String × JValue) → List Char
  | [] => []
  | [f] => '"' :: (serStr f.1.data ++ '"' :: ':' :: ser f.2)
  | f :: fs => ('"' :: (serStr f.1.data ++ '"' :: ':' :: ser f.2)) ++ ',' :: serFieldsAux fs

end

/-- Consume a run of digit characters, accumulating their value. -/
def takeDigs : List Char → Nat → Nat × List Char
  | [], acc => (acc, [])
  | c :: rest, acc =>
      if isDig c then takeDigs rest (acc * 10 + digVal c) else (acc, c :: rest)

/-- Parse a JSON string body up to and including the closing quote. -/
def parseStr : List Char → Option (List Char × List Char)
  | [] => none
  | c :: rest =>
    if c = '"' then some ([], rest)
    else if c = '\\' then
      match rest with
      | c2 :: rest2 =>
          if c2 = '"' ∨ c2 = '\\' then
            match parseStr rest2 with
            | some (cs, r) => some (c2 :: cs, r)
            | none => none
          else none
      | [] => none
    else
      match parseStr rest with
      | some (cs, r) => some (c :: cs, r)
      | none => none

/-- Expect a fixed literal suffix (`ull`, `rue`, `alse`), returning the
rest of the input. -/
def expectLit : List Char → List Char → Option (List Char)
  | [], input => some input
  | c :: cs, input =>
      match input with
      | c2 :: rest => if c2 = c then expectLit cs rest else none
      | [] => none

mutual

/-- `json.loads`, recursive descent with fuel: parse one JSON value,
returning it with the unconsumed suffix. -/
def parseJ : Nat → List Char → Option (JValue × List Char)
  | 0, _ => none
  | _ + 1, [] => none
  | fuel + 1, c :: rest =>
    if c = 'n' then
      (expectLit ['u', 'l', 'l'] rest).map (fun r => (.null, r))
    else if c = 't' then
      (expectLit ['r', 'u', 'e'] rest).map (fun r => (.bool true, r))
    else if c = 'f' then
      (expectLit ['a', 'l', 's', 'e'] rest).map (fun r => (.bool false, r))
    else if c = '"' then
      (parseStr rest).map (fun p => (.str (String.mk p.1), p.2))
    else if c = '[' then
      (parseItems fuel rest).map (fun p => (.arr p.1, p.2))
    else if c = '\x7b' then
      (parseFields fuel rest).map (fun p => (.obj p.1, p.2))
    else if c = '-' then
      match rest with
      | c2 :: _ =>
          if isDig c2 then
            some (.num (-((takeDigs rest 0).1 : Int)), (takeDigs rest 0).2)
          else none
      | [] => none
    else if isDig c then
      some (.num ((takeDigs (c :: rest) 0).1 : Int), (takeDigs (c :: rest) 0).2)
    else none
termination_by fuel _ => (fuel, 0)

/-- Parse array elements up to and including the closing bracket. -/
def parseItems : Nat → List Char → Option (List JValue × List Char)
  | 0, _ => none
  | _ + 1, [] => none
  | fuel + 1, c :: rest =>
    if c = ']' then some ([], rest)
    else
      (parseJ (fuel + 1) (c :: rest)).bind (fun vr =>
        match vr.2 with
        | r0 :: r2 =>
            if r0 = ',' then
              (parseItems fuel r2).map (fun p => (vr.1 :: p.1, p.2))
            else if r0 = ']' then some ([vr.1], r2)
            else none
        | [] => none)
termination_by fuel _ => (fuel, 1)

/-- Parse object members up to and including the closing brace. -/
def parseFields : Nat → List Char → Option (List (String × JValue) × List Char)
  | 0, _ => none
  | _ + 1, [] => none
  | fuel + 1, c :: rest =>
    if c = '\x7d' then some ([], rest)
    else if c = '"' then
      (parseStr rest).bind (fun kr =>
        match kr.2 with
        | r0 :: r2 =>
          if r0 = ':' then
            (parseJ (fuel + 1) r2).bind (fun vr =>
              match vr.2 with
              | r4h :: r4 =>
                if r4h = ',' then
                  (parseFields fuel r4).map
                    (fun p => ((String.mk kr.1, vr.1) :: p.1, p.2))
                else if r4h = '\x7d' then some ([(String.mk kr.1, vr.1)], r4)
                else none
              | [] => none)
          else none
        | [] => none)
    else none
termination_by fuel _ => (fuel, 2)

end

mutual

/-- Fuel sufficient for `parseJ` to parse the printed form of a value. -/
def jweight : JValue → Nat
  | .null => 1
  | .bool _ => 1
  | .num _ => 1
  | .str _ => 1
  | .arr xs => 1 + itemsW xs
  | .obj fs => 1 + fieldsW fs

/-- Fuel sufficient for `parseItems` on the printed elements. -/
def itemsW : List JValue → Nat
  | [] => 1
  | [x] => max (jweight x) 1
  | x :: xs => max (jweight x) (1 + itemsW xs)

/-- Fuel sufficient for `parseFields` on the printed members. -/
def fieldsW : List (String × JValue) → Nat
  | [] => 1
  | [f] => max (jweight f.2) 1
  | f :: fs => max (jweight f.2) (1 + fieldsW fs)

end

/-- Does the input start with a digit (the one token a JSON number parse
would greedily absorb)? -/
def digStart : List Char → Bool
  | [] => false
  | c :: _ => isDig c

/-- The printed form of a number must not be followed immediately by more
digits for the parse to stop where the printer stopped. -/
def numGuard : JValue → List Char → Prop
  | .num _, tail => digStart tail = false
  | _, _ => True

/-- `json.loads` of a whole text: parse one value and insist the text is
exhausted, as the library does. -/
def json_loads (s : List Char) : Except String JValue :=
  match parseJ (s.length + 1) s with
  | some (v, []) => .ok v
  | some (_, _ :: _) => .error "Extra data"
  | none => .error "No JSON object could be decoded"

/-- `zlib.compress`, modelled as run-length encoding (any invertible
byte-level compressor satisfies the interface the source relies on). -/
def zlib_compress : List Char → List (Nat × Char)
  | [] => []
  | c :: rest =>
    match zlib_compress rest with
    | (n, c2) :: t => if c2 = c then (n + 1, c) :: t else (1, c) :: (n, c2) :: t
    | [] => [(1, c)]

/-- `zlib.decompress`: expand the run-length encoding. -/
def zlib_decompress : List (Nat × Char) → List Char
  | [] => []
  | (n, c) :: t => List.replicate n c ++ zlib_decompress t

/-- `JsonDataType.process_bind_param`: `None` maps to `None`; any other
value is serialized with `json.dumps` and then compressed. -/
def process_bind_param (value : Option JValue) : Option (List (Nat × Char)) :=
  value.map (fun v => zlib_compress (ser v))

/-- `JsonDataType.process_result_value`: `None` maps to `None`; any other
stored blob is decompressed and then parsed with `json.loads` (which
raises on bad input, hence the `Except`). -/
def process_result_value (value : Option (List (Nat × Char))) :
    Except String (Option JValue) :=
  match value with
  | none => .ok none
  | some bs => (json_loads (zlib_decompress bs)).map some

/-! ### Specification-side definitions and concrete instances -/

/-- Does this key start with an underscore? (`k.startswith("_")`, written
on the character list so that it evaluates by kernel reduction.) -/
def underscoreKey (k : String) : Bool :=
  match k.data with
  | c :: _ => c = '_'
  | [] => false

/-- Spec side: the non-system fields of a document — those whose key does
not start with an underscore. -/
def nonSystemFields (d : Doc) : Doc :=
  d.filter (fun kv => !(underscoreKey kv.1))

/-- Spec side: the filter semantics the spec's words assign to
`View.query` — a set **or** list value becomes a membership predicate,
anything else exact equality. -/
def specFilterMatch (row : Doc) (f : String × FilterVal) : Bool :=
  let cval := (dlookup f.1 row).getD .null
  match f.2 with
  | .jlist vs => vs.contains cval
  | .jset vs => vs.contains cval
  | .single v => cval == v

/-- A view map function that probes whether the `_rev` key was injected
into the document it receives (as `put` does and `put_many` does not). -/
def vmapRevProbe : Doc → List Doc :=
  fun d => [[("has_rev", .bool (dlookup "_rev" d).isSome)]]

/-- A view map function that reports the number of keys of the document it
receives. -/
def vmapLen : Doc → List Doc :=
  fun d => [[("n", .num d.length)]]

/-- The store with the `_rev`-probing view after a single `put`. -/
def sRevProbe : StoreState :=
  (put (initState [("v", vmapRevProbe)]) "a" []).1

/-- A fallible view map function that always raises. -/
def vmapBoom : Doc → Except String (List Doc) := fun _ => .error "boom"

/-- A fallible store with one always-raising view. -/
def sBoom : StoreStateE := ⟨[], 1, [("v", ⟨vmapBoom, []⟩)]⟩

/-- A one-row view table for exercising a set-valued filter. -/
def vSetCex : ViewSt := ⟨fun _ => [], [[("c", .num 2)]]⟩

def numOf (i : Nat) : JValue := .num (Int.ofNat i)

def Inv (s : StoreState) : Prop :=
  WFState s ∧ ∀ nv ∈ s.views, ruInsensitive nv.2.map →
    viewConsistent nv.2.map nv.2.table s.table

def applyMapping (mapping : List (String × Doc)) (r : DRow) : DRow :=
  match alookup r.key mapping with
  | some dd => ⟨r.id, some "0", r.updated, r.key, dd⟩
  | none => r

def newParamsOf (T : List DRow) (mapping : List (String × Doc)) : List (String × Doc) :=
  mapping.filter (fun kd => !((tableKeys T).contains kd.1))

def newRowsOf (T : List DRow) (nid : Nat) (mapping : List (String × Doc)) : List DRow :=
  (newParamsOf T mapping).enum.map
    (fun ikd => ⟨nid + ikd.1, some "0", none, ikd.2.1, ikd.2.2⟩)

/-- The final primary table after a batch write: existing rows updated from
the mapping in place, new keys appended in mapping order with consecutive
backend-assigned ids. -/
def canonTable (T : List DRow) (nid : Nat) (mapping : List (String × Doc)) : List DRow :=
  T.map (applyMapping mapping) ++ newRowsOf T nid mapping

def viewSigs (views : List (String × ViewSt)) : List (String × (Doc → List Doc)) :=
  views.map (fun nv => (nv.1, nv.2.map))

def wMap : Doc → List Doc := fun _ => [[("c", JValue.null)]]

def wViews : List (String × (Doc → List Doc)) := [("v", wMap)]

def wOps : List Op :=
  [Op.put "a" [("x", JValue.num 1)],
   Op.put_many [("a", [("y", JValue.num 2)]), ("b", [])]]

def wMapping : List (String × Doc) := [("a", [("y", JValue.num 2)]), ("b", [])]

def wState : StoreState := initState wViews

/-! ## Theorems -/

theorem dlookup_dinsert_self (k : String) (v : JValue) (d : Doc) :
    dlookup k (dinsert k v d) = some v := by
  induction d with
  | nil => simp [dinsert, dlookup]
  | cons kv rest ih =>
      obtain ⟨k1, v1⟩ := kv
      by_cases h : k1 = k
      · simp [dinsert, dlookup, h]
      · simp [dinsert, dlookup, h, ih]

theorem dlookup_dinsert_ne {k1 k : String} (h : k1 ≠ k) (v : JValue) (d : Doc) :
    dlookup k (dinsert k1 v d) = dlookup k d := by
  induction d with
  | nil => simp [dinsert, dlookup, h]
  | cons kv rest ih =>
      obtain ⟨k2, v2⟩ := kv
      by_cases h2 : k2 = k1
      · subst h2
        simp [dinsert, dlookup, h]
      · by_cases h3 : k2 = k
        · subst h3
          simp [dinsert, dlookup, h2, Ne.symm h]
        · simp [dinsert, dlookup, h2, h3, ih]

theorem nonSystemFields_dinsert {k : String} (h : underscoreKey k = true)
    (v : JValue) (d : Doc) :
    nonSystemFields (dinsert k v d) = nonSystemFields d := by
  induction d with
  | nil => simp [dinsert, nonSystemFields, h]
  | cons kv rest ih =>
      obtain ⟨k1, v1⟩ := kv
      by_cases h1 : k1 = k
      · subst h1
        simp [dinsert, nonSystemFields, h]
      · simp only [dinsert, if_neg h1, nonSystemFields, List.filter_cons]
        simp only [nonSystemFields] at ih
        rw [ih]

theorem update_view_ne {m : Doc → List Doc} {vt docs : List Doc}
    (hne : docs ≠ []) :
    update_view m vt docs =
      vt.filter (fun row => !((docs.map rowIdVal).contains (rowIdVal row)))
        ++ map_docs m docs := by
  unfold update_view
  rw [if_neg (fun hh => hne (List.isEmpty_iff.mp hh))]
  exact rfl

/-- C6 (claim): `update_view` on a nonempty batch deletes all index rows
whose `_id` is among the batch ids and inserts the full mapped batch; on
an empty batch it leaves the table unchanged; consequently each row's
multiplicity in the result is its old multiplicity (zeroed if its `_id` is
a batch id) plus its multiplicity among the freshly mapped rows. -/
theorem update_view_delete_then_insert (m : Doc → List Doc) (vt : List Doc)
    (docs : List Doc) :
    update_view m vt [] = vt ∧
    (docs ≠ [] →
      update_view m vt docs =
        vt.filter (fun row => !((docs.map rowIdVal).contains (rowIdVal row)))
          ++ map_docs m docs) ∧
    ∀ row : Doc, (update_view m vt docs).count row =
      (if rowIdVal row ∈ docs.map rowIdVal then 0 else vt.count row)
        + (map_docs m docs).count row := by
  refine ⟨rfl, fun hne => update_view_ne hne, fun row => ?_⟩
  rcases eq_or_ne docs [] with rfl | hne
  · simp [update_view, map_docs]
  · rw [update_view_ne hne, List.count_append]
    congr 1
    by_cases hmem : rowIdVal row ∈ docs.map rowIdVal
    · rw [if_pos hmem, List.count_eq_zero]
      intro hrow
      rw [List.mem_filter] at hrow
      have h2 := hrow.2
      simp only [List.contains, List.elem_eq_mem, Bool.not_eq_eq_eq_not,
        Bool.not_true, decide_eq_false_iff_not] at h2
      exact h2 hmem
    · rw [if_neg hmem, List.count_filter]
      simp only [List.contains, List.elem_eq_mem, Bool.not_eq_eq_eq_not,
        Bool.not_true, decide_eq_false_iff_not]
      exact hmem

/-- C6 witness: the delete-then-insert equation applied to a concrete
nonempty batch. -/
theorem update_view_delete_then_insert_witness :
    update_view vmapLen [[("x", .null), ("_id", .num 7)]]
        [[("_id", .num 7), ("_key", .str "a")]] =
      [] ++ map_docs vmapLen [[("_id", .num 7), ("_key", .str "a")]] := by
  have h := (update_view_delete_then_insert vmapLen
    [[("x", .null), ("_id", .num 7)]]
    [[("_id", .num 7), ("_key", .str "a")]]).2.1 (by decide)
  rw [h]
  decide

/-- C7 counterexample: a filter whose value is a set is not translated to a
membership predicate — the row whose column value belongs to the set
satisfies the claim's (set-or-list) membership semantics, yet the query
returns nothing. -/
theorem set_filter_not_membership :
    specFilterMatch [("c", .num 2)] ("c", .jset [.num 2]) = true ∧
    viewQuery vSetCex [("c", .jset [.num 2])] = [] := by
  constructor
  · decide
  · decide

/-- C7 (amended): only a filter value that is a Python list becomes a
membership (IN) predicate; a set value falls into the equality branch and
(being incomparable with the scalar column values) matches no row; every
other value becomes exact equality; filters conjoin, so the result holds
exactly the view rows satisfying every translated filter. -/
theorem view_query_filter_semantics (vs : ViewSt)
    (filters : List (String × FilterVal)) (row : Doc) :
    row ∈ viewQuery vs filters ↔
      row ∈ vs.table ∧ ∀ f ∈ filters,
        (match f.2 with
         | .jlist vals => ((dlookup f.1 row).getD .null) ∈ vals
         | .jset _ => False
         | .single v => ((dlookup f.1 row).getD .null) = v) := by
  simp only [viewQuery, List.mem_filter, List.all_eq_true]
  constructor
  · rintro ⟨h1, h2⟩
    refine ⟨h1, fun f hf => ?_⟩
    have hm := h2 f hf
    obtain ⟨name, fv⟩ := f
    cases fv with
    | jlist vals =>
        simpa [matchesFilter, List.contains, List.elem_eq_mem] using hm
    | jset vals => simp [matchesFilter] at hm
    | single v => simpa [matchesFilter] using hm
  · rintro ⟨h1, h2⟩
    refine ⟨h1, fun f hf => ?_⟩
    have hm := h2 f hf
    obtain ⟨name, fv⟩ := f
    cases fv with
    | jlist vals =>
        simpa [matchesFilter, List.contains, List.elem_eq_mem] using hm
    | jset vals => exact absurd hm (by simp)
    | single v => simpa [matchesFilter] using hm

/-- C10: querying a view name that is not registered raises
(`views.get(name)` is `None`, and `None.query(...)` is an
`AttributeError`); it does not return an empty result or `None`. -/
theorem query_unknown_view_raises (s : StoreState) (name : String)
    (filters : List (String × FilterVal))
    (h : ∀ nv ∈ s.views, nv.1 ≠ name) :
    dsQuery s name filters = .error "AttributeError" ∧
    ∀ res, dsQuery s name filters ≠ .ok res := by
  have hfind : s.views.find? (fun nv => nv.1 == name) = none :=
    List.find?_eq_none.mpr (fun nv hnv => by simpa using h nv hnv)
  constructor
  · simp [dsQuery, hfind]
  · intro res
    simp [dsQuery, hfind]

/-- C10 witness: querying a store with no registered views raises. -/
theorem query_unknown_view_raises_witness :
    dsQuery (initState []) "missing" [] = .error "AttributeError" :=
  (query_unknown_view_raises (initState []) "missing" [] (by simp [initState])).1

theorem alookup_ainsert_isSome {α : Type} (k k1 : String) (v : α)
    (l : List (String × α)) :
    (alookup k (ainsert k1 v l)).isSome ↔ (k = k1 ∨ (alookup k l).isSome) := by
  induction l with
  | nil =>
      by_cases h : k1 = k
      · subst h
        simp [ainsert, alookup]
      · have hks : ¬(k = k1) := fun hh => h hh.symm
        simp [ainsert, alookup, h, hks]
  | cons kv rest ih =>
      obtain ⟨k2, v2⟩ := kv
      by_cases h2 : k2 = k1
      · subst h2
        by_cases h : k2 = k
        · subst h
          simp [ainsert, alookup]
        · have hks : ¬(k = k2) := fun hh => h hh.symm
          simp [ainsert, alookup, h, hks]
      · by_cases h3 : k2 = k
        · subst h3
          have hks : ¬(k2 = k1) := h2
          simp [ainsert, alookup, h2, hks]
        · simp [ainsert, alookup, h2, h3, ih]

theorem alookup_foldl_ainsert (items : List DRow) :
    ∀ (acc : List (String × Doc)) (k : String),
    (alookup k (items.foldl (fun acc r => ainsert r.key (process_row r) acc) acc)).isSome
      ↔ ((alookup k acc).isSome ∨ k ∈ items.map DRow.key) := by
  induction items with
  | nil => simp
  | cons r items ih =>
      intro acc k
      rw [List.foldl_cons, ih, alookup_ainsert_isSome]
      simp only [List.map_cons, List.mem_cons]
      tauto

/-- C8: absence is an explicit value — `get` of a key with no row is
`none`, and the domain of the dict returned by `get_many` is exactly the
subset of the requested keys present in the primary table. -/
theorem absence_is_explicit (s : StoreState) (k : String) (keys : List String) :
    ((∀ r ∈ s.table, r.key ≠ k) → get s k = none) ∧
    ((alookup k (get_many s keys)).isSome ↔ (k ∈ keys ∧ ∃ r ∈ s.table, r.key = k)) := by
  constructor
  · intro h
    unfold get findRow
    rw [List.find?_eq_none.mpr (fun r hr => by simpa using h r hr)]
    rfl
  · unfold get_many
    rw [alookup_foldl_ainsert]
    simp only [alookup, Option.isSome_none, Bool.false_eq_true, false_or,
      List.mem_map, List.mem_filter, List.contains, List.elem_eq_mem,
      decide_eq_true_eq]
    constructor
    · rintro ⟨r, ⟨hr, hk⟩, rfl⟩
      exact ⟨hk, r, hr, rfl⟩
    · rintro ⟨hk, r, hr, rfl⟩
      exact ⟨r, ⟨hr, hk⟩, rfl⟩

/-- C8 witness: a missing key yields `none` from a concrete store. -/
theorem absence_is_explicit_witness :
    get (put (initState []) "a" [("x", .num 1)]).1 "b" = none :=
  (absence_is_explicit (put (initState []) "a" [("x", .num 1)]).1 "b" ["b"]).1
    (by decide)

theorem findRow_map_key_preserving (T : List DRow) (k : String) (f : DRow → DRow)
    (hf : ∀ r, (f r).key = r.key) :
    findRow (T.map f) k = (findRow T k).map f := by
  unfold findRow
  rw [List.find?_map]
  have hp : ((fun r => r.key == k) ∘ f) = (fun r : DRow => r.key == k) :=
    funext fun r => by simp [Function.comp, hf r]
  rw [hp]

/-- After `put s k d`, the first row with key `k` holds data `d` and the
placeholder revision. -/
theorem put_findRow (s : StoreState) (k : String) (d : Doc) :
    ∃ r, findRow (put s k d).1.table k = some r ∧
      r.data = d ∧ r.rev = some "0" ∧ r.key = k := by
  cases hfind : findRow s.table k with
  | none =>
      refine ⟨⟨s.nextId, some "0", none, k, d⟩, ?_, rfl, rfl, rfl⟩
      simp only [put, hfind]
      unfold findRow at hfind ⊢
      rw [List.find?_append, hfind]
      simp
  | some row0 =>
      have hkey : row0.key = k := by
        have := List.find?_some hfind
        simpa using this
      refine ⟨⟨row0.id, some "0", row0.updated, k, d⟩, ?_, rfl, rfl, rfl⟩
      simp only [put, hfind]
      rw [findRow_map_key_preserving _ _ _ (fun r => by by_cases hr : r.key = k <;> simp [hr])]
      rw [hfind]
      simp [hkey]

/-- C4: `put` is an unconditional upsert: a fresh key inserts a row with
the backend-assigned id and placeholder revision `"0"`; an existing key
has its first matching row's `data`/`rev` overwritten in place with ids
and keys untouched, no revision comparison guarding the write; the
returned record carries `id`, `key`, `rev`, `updated`; and a second `put`
of the same key leaves that key's stored data as the second document
(last write wins). -/
theorem put_unconditional_upsert (s : StoreState) (k : String) (d d2 : Doc) :
    (findRow s.table k = none →
      (put s k d).1.table = s.table ++ [⟨s.nextId, some "0", none, k, d⟩] ∧
      (put s k d).1.nextId = s.nextId + 1 ∧
      (put s k d).2 = ⟨s.nextId, k, none, none⟩) ∧
    (∀ row, findRow s.table k = some row →
      findRow (put s k d).1.table k = some ⟨row.id, some "0", row.updated, k, d⟩ ∧
      (put s k d).1.table.map DRow.id = s.table.map DRow.id ∧
      (put s k d).1.table.map DRow.key = s.table.map DRow.key ∧
      (put s k d).1.nextId = s.nextId ∧
      (put s k d).2 = ⟨row.id, k, none, none⟩) ∧
    (∃ r2, findRow (put (put s k d).1 k d2).1.table k = some r2 ∧
      r2.data = d2 ∧ r2.rev = some "0") := by
  refine ⟨fun hfind => ?_, fun row hfind => ?_, ?_⟩
  · simp [put, hfind]
  · have hkey : row.key = k := by
      have := List.find?_some hfind
      simpa using this
    refine ⟨?_, ?_, ?_, ?_, ?_⟩
    · simp only [put, hfind]
      rw [findRow_map_key_preserving _ _ _
        (fun r => by by_cases hr : r.key = k <;> simp [hr])]
      rw [hfind]
      simp [hkey]
    · simp only [put, hfind]
      rw [List.map_map]
      exact List.map_congr_left (fun r _ => by by_cases hr : r.key = k <;> simp [hr])
    · simp only [put, hfind]
      rw [List.map_map]
      exact List.map_congr_left (fun r _ => by by_cases hr : r.key = k <;> simp [hr])
    · simp [put, hfind]
    · simp [put, hfind]
  · obtain ⟨r2, h2, hd2, hrev2, _⟩ := put_findRow (put s k d).1 k d2
    exact ⟨r2, h2, hd2, hrev2⟩

/-- C4 witness: the in-place update clause at a concrete store holding the
key already. -/
theorem put_unconditional_upsert_witness :
    findRow (put (put (initState []) "a" [("x", .num 1)]).1 "a" [("y", .num 2)]).1.table "a"
      = some ⟨1, some "0", none, "a", [("y", .num 2)]⟩ :=
  ((put_unconditional_upsert (put (initState []) "a" [("x", .num 1)]).1 "a"
      [("y", .num 2)] []).2.1 ⟨1, some "0", none, "a", [("x", .num 1)]⟩ (by decide)).1

theorem nonSystemFields_process_row (r : DRow) :
    nonSystemFields (process_row r) = nonSystemFields r.data := by
  unfold process_row
  rw [nonSystemFields_dinsert (by decide), nonSystemFields_dinsert (by decide),
    nonSystemFields_dinsert (by decide), nonSystemFields_dinsert (by decide)]

/-- C5 counterexample: the claim's hypothesis admits a document carrying a
non-reserved underscore field (`_x`), which `get` does return but the
non-system projection drops — so the non-system fields of the fetched
document are not equal to the stored document. -/
theorem round_trip_underscore_counterexample :
    (∀ kv ∈ ([("_x", JValue.null)] : Doc),
      kv.1 ≠ "_id" ∧ kv.1 ≠ "_key" ∧ kv.1 ≠ "_rev" ∧ kv.1 ≠ "_updated") ∧
    (get (put (initState []) "k" [("_x", JValue.null)]).1 "k").map nonSystemFields
      ≠ some [("_x", JValue.null)] := by
  constructor
  · decide
  · decide

/-- C5 (amended): for a document none of whose fields start with an
underscore, `get` after `put` returns a document whose non-system fields
are exactly the stored document. -/
theorem put_get_round_trip (s : StoreState) (k : String) (d : Doc)
    (hd : ∀ kv ∈ d, underscoreKey kv.1 = false) :
    ∃ doc, get (put s k d).1 k = some doc ∧ nonSystemFields doc = d := by
  obtain ⟨r, hfind, hdata, _, _⟩ := put_findRow s k d
  refine ⟨process_row r, ?_, ?_⟩
  · unfold get
    rw [hfind]
    rfl
  · rw [nonSystemFields_process_row, hdata]
    unfold nonSystemFields
    exact List.filter_eq_self.mpr (fun kv hkv => by simp [hd kv hkv])

/-- C5 witness: the round trip at a concrete store and document. -/
theorem put_get_round_trip_witness :
    ∃ doc, get (put (initState []) "foo" [("name", .str "foo")]).1 "foo" = some doc ∧
      nonSystemFields doc = [("name", .str "foo")] :=
  put_get_round_trip (initState []) "foo" [("name", .str "foo")] (by decide)

/-- C3: every statement of `put`/`put_many` runs inside the single
transaction opened by the call, so an error raised by any step (in
repository code, a view's map function raising while the batch is mapped)
rolls the whole call back: the primary table and every view table are left
exactly in their prior committed state, and nothing of the batch is
applied. -/
theorem tx_rollback_on_error (s : StoreStateE) (k : String) (d : Doc)
    (mapping : List (String × Doc)) :
    (∀ e, putE s k d = .error e → putTx s k d = (s, .error e)) ∧
    (∀ e, put_manyE s mapping = .error e → put_manyTx s mapping = (s, .error e)) := by
  constructor
  · intro e he
    simp [putTx, he]
  · intro e he
    simp [put_manyTx, he]

/-- C3 witness: a raising view map aborts a concrete `put`, leaving the
store untouched. -/
theorem tx_rollback_on_error_witness :
    putTx sBoom "k" [] = (sBoom, .error "boom") :=
  (tx_rollback_on_error sBoom "k" [] []).1 "boom" rfl

theorem takeDigs_nonDigit (rest : List Char) (acc : Nat)
    (h : digStart rest = false) : takeDigs rest acc = (acc, rest) := by
  cases rest with
  | nil => rfl
  | cons c r =>
      simp only [digStart] at h
      simp [takeDigs, h]

theorem isDig_digChar {n : Nat} (h : n < 10) : isDig (digChar n) = true := by
  interval_cases n <;> decide

theorem digVal_digChar {n : Nat} (h : n < 10) : digVal (digChar n) = n := by
  interval_cases n <;> decide

theorem natDigs_cons (n : Nat) : ∃ c t, natDigs n = c :: t ∧ isDig c = true := by
  induction n using Nat.strong_induction_on with
  | _ n ih =>
      by_cases h : n < 10
      · exact ⟨digChar n, [], by rw [natDigs, if_pos h], isDig_digChar h⟩
      · obtain ⟨c, t, hct, hdig⟩ := ih (n / 10) (Nat.div_lt_self (by omega) (by omega))
        exact ⟨c, t ++ [digChar (n % 10)], by rw [natDigs, if_neg h, hct]; rfl, hdig⟩

theorem takeDigs_natDigs (n : Nat) : ∀ (rest : List Char) (acc : Nat),
    takeDigs (natDigs n ++ rest) acc
      = takeDigs rest (acc * 10 ^ (natDigs n).length + n) := by
  induction n using Nat.strong_induction_on with
  | _ n ih =>
      intro rest acc
      by_cases h : n < 10
      · rw [natDigs, if_pos h]
        simp only [List.cons_append, List.nil_append]
        simp only [takeDigs, if_pos (isDig_digChar h), digVal_digChar h]
        have hlen : ([digChar n] : List Char).length = 1 := rfl
        rw [hlen, pow_one]
      · rw [natDigs, if_neg h]
        rw [List.append_assoc, ih (n / 10) (Nat.div_lt_self (by omega) (by omega))]
        simp only [List.cons_append, List.nil_append]
        simp only [takeDigs, if_pos (isDig_digChar (Nat.mod_lt n (by omega))),
          digVal_digChar (Nat.mod_lt n (by omega))]
        rw [List.length_append, List.length_cons, List.length_nil]
        congr 1
        have hdm : n / 10 * 10 + n % 10 = n := by omega
        have hexp : (natDigs (n / 10)).length + (0 + 1)
            = (natDigs (n / 10)).length + 1 := by omega
        rw [hexp, pow_succ]
        calc (acc * 10 ^ (natDigs (n / 10)).length + n / 10) * 10 + n % 10
            = acc * (10 ^ (natDigs (n / 10)).length * 10)
                + (n / 10 * 10 + n % 10) := by ring
          _ = acc * (10 ^ (natDigs (n / 10)).length * 10) + n := by rw [hdm]

theorem parseStr_complete : ∀ (s : List Char) (tail : List Char),
    parseStr (serStr s ++ '"' :: tail) = some (s, tail)
  | [], tail => by
      have h0 : serStr [] ++ '"' :: tail = '"' :: tail := rfl
      rw [h0, parseStr.eq_def]
      simp
  | c :: s, tail => by
      by_cases hc : c = '"' ∨ c = '\\'
      · have h1 : serStr (c :: s) ++ '"' :: tail
            = '\\' :: c :: (serStr s ++ '"' :: tail) := by
          simp [serStr, escChar, hc]
        rw [h1]
        simp only [parseStr, if_neg (show ¬('\\' = '"') by decide), if_pos rfl,
          hc, if_true, parseStr_complete s tail]
      · have hq : ¬(c = '"') := fun hh => hc (Or.inl hh)
        have hb : ¬(c = '\\') := fun hh => hc (Or.inr hh)
        have h1 : serStr (c :: s) ++ '"' :: tail
            = c :: (serStr s ++ '"' :: tail) := by
          simp [serStr, escChar, hc]
        rw [h1, parseStr.eq_def]
        simp only [if_neg hq, if_neg hb, parseStr_complete s tail]


theorem isDig_ne_lits {c : Char} (h : isDig c = true) :
    ¬(c = 'n') ∧ ¬(c = 't') ∧ ¬(c = 'f') ∧ ¬(c = '"') ∧ ¬(c = '[') ∧
    ¬(c = '\x7b') ∧ ¬(c = '-') ∧ ¬(c = ']') ∧ ¬(c = ',') := by
  refine ⟨?_, ?_, ?_, ?_, ?_, ?_, ?_, ?_, ?_⟩ <;>
    (intro hc; subst hc; exact absurd h (by decide))

theorem parseJ_digit (fuel : Nat) (c : Char) (rest : List Char)
    (h : isDig c = true) :
    parseJ (fuel + 1) (c :: rest)
      = some (.num ((takeDigs (c :: rest) 0).1 : Int), (takeDigs (c :: rest) 0).2) := by
  obtain ⟨h1, h2, h3, h4, h5, h6, h7, _, _⟩ := isDig_ne_lits h
  rw [parseJ.eq_def]
  simp only [if_neg h1, if_neg h2, if_neg h3, if_neg h4, if_neg h5,
    if_neg h6, if_neg h7, if_pos h]

theorem parseJ_minus (fuel : Nat) (c : Char) (t2 : List Char)
    (h : isDig c = true) :
    parseJ (fuel + 1) ('-' :: c :: t2)
      = some (.num (-((takeDigs (c :: t2) 0).1 : Int)), (takeDigs (c :: t2) 0).2) := by
  rw [parseJ.eq_def]
  simp only [if_neg (show ¬('-' = 'n') by decide),
    if_neg (show ¬('-' = 't') by decide), if_neg (show ¬('-' = 'f') by decide),
    if_neg (show ¬('-' = '"') by decide), if_neg (show ¬('-' = '[') by decide),
    if_neg (show ¬('-' = '\x7b') by decide), if_pos rfl, h, if_true]

theorem numGuard_cons {c : Char} (h : isDig c = false) (v : JValue)
    (tail : List Char) : numGuard v (c :: tail) := by
  cases v <;> simp [numGuard, digStart, h]

theorem ser_head : ∀ v : JValue, ∃ c t, ser v = c :: t ∧ ¬(c = ']')
  | .null => ⟨'n', _, rfl, by decide⟩
  | .bool true => ⟨'t', _, rfl, by decide⟩
  | .bool false => ⟨'f', _, rfl, by decide⟩
  | .str s => ⟨'"', _, rfl, by decide⟩
  | .arr xs => ⟨'[', _, rfl, by decide⟩
  | .obj fs => ⟨'\x7b', _, rfl, by decide⟩
  | .num n => by
      by_cases hn : n < 0
      · exact ⟨'-', natDigs n.natAbs, by simp [ser, serInt, hn], by decide⟩
      · obtain ⟨c, t, hct, hdig⟩ := natDigs_cons n.natAbs
        exact ⟨c, t, by simp [ser, serInt, hn, hct],
          (isDig_ne_lits hdig).2.2.2.2.2.2.2.1⟩

mutual

theorem parseJ_complete : (v : JValue) → (tail : List Char) → numGuard v tail →
    (fuel : Nat) → jweight v ≤ fuel → parseJ fuel (ser v ++ tail) = some (v, tail)
  | .null, tail, _, fuel, hf => by
      obtain ⟨f, rfl⟩ : ∃ f, fuel = f + 1 := ⟨fuel - 1, by simp [jweight] at hf; omega⟩
      rw [show ser .null ++ tail = 'n' :: 'u' :: 'l' :: 'l' :: tail from rfl,
        parseJ.eq_def]
      simp [expectLit]
  | .bool true, tail, _, fuel, hf => by
      obtain ⟨f, rfl⟩ : ∃ f, fuel = f + 1 := ⟨fuel - 1, by simp [jweight] at hf; omega⟩
      rw [show ser (.bool true) ++ tail = 't' :: 'r' :: 'u' :: 'e' :: tail from rfl,
        parseJ.eq_def]
      simp [expectLit]
  | .bool false, tail, _, fuel, hf => by
      obtain ⟨f, rfl⟩ : ∃ f, fuel = f + 1 := ⟨fuel - 1, by simp [jweight] at hf; omega⟩
      rw [show ser (.bool false) ++ tail = 'f' :: 'a' :: 'l' :: 's' :: 'e' :: tail from rfl,
        parseJ.eq_def]
      simp [expectLit]
  | .num n, tail, hg, fuel, hf => by
      obtain ⟨f, rfl⟩ : ∃ f, fuel = f + 1 := ⟨fuel - 1, by simp [jweight] at hf; omega⟩
      have hguard : digStart tail = false := hg
      by_cases hn : n < 0
      · have hser : ser (.num n) ++ tail = '-' :: (natDigs n.natAbs ++ tail) := by
          rw [show ser (.num n) = serInt n from rfl]
          simp only [serInt, if_pos hn, List.cons_append]
        obtain ⟨c, t, hct, hdig⟩ := natDigs_cons n.natAbs
        rw [hser, hct, List.cons_append, parseJ_minus f c (t ++ tail) hdig,
          ← List.cons_append, ← hct, takeDigs_natDigs,
          takeDigs_nonDigit tail _ hguard]
        simp only [Nat.zero_mul, Nat.zero_add]
        have hv : (-(n.natAbs : Int)) = n := by omega
        rw [hv]
      · have hser : ser (.num n) ++ tail = natDigs n.natAbs ++ tail := by
          rw [show ser (.num n) = serInt n from rfl]
          simp only [serInt, if_neg hn]
        obtain ⟨c, t, hct, hdig⟩ := natDigs_cons n.natAbs
        rw [hser, hct, List.cons_append, parseJ_digit f c (t ++ tail) hdig,
          ← List.cons_append, ← hct, takeDigs_natDigs,
          takeDigs_nonDigit tail _ hguard]
        simp only [Nat.zero_mul, Nat.zero_add]
        have hv : ((n.natAbs : Int)) = n := by omega
        rw [hv]
  | .str s, tail, _, fuel, hf => by
      obtain ⟨f, rfl⟩ : ∃ f, fuel = f + 1 := ⟨fuel - 1, by simp [jweight] at hf; omega⟩
      have hser : ser (.str s) ++ tail = '"' :: (serStr s.data ++ '"' :: tail) := by
        simp [ser]
      rw [hser, parseJ.eq_def]
      simp only [if_neg (show ¬('"' = 'n') by decide),
        if_neg (show ¬('"' = 't') by decide), if_neg (show ¬('"' = 'f') by decide),
        if_pos rfl, parseStr_complete s.data tail]
      rfl
  | .arr xs, tail, _, fuel, hf => by
      obtain ⟨f, rfl⟩ : ∃ f, fuel = f + 1 := ⟨fuel - 1, by simp [jweight] at hf; omega⟩
      have hw : itemsW xs ≤ f := by simp [jweight] at hf; omega
      have hser : ser (.arr xs) ++ tail = '[' :: (serItemsAux xs ++ ']' :: tail) := by
        simp [ser]
      rw [hser, parseJ.eq_def]
      simp only [if_neg (show ¬('[' = 'n') by decide),
        if_neg (show ¬('[' = 't') by decide), if_neg (show ¬('[' = 'f') by decide),
        if_neg (show ¬('[' = '"') by decide), if_pos rfl,
        parseItems_complete xs tail f hw]
      rfl
  | .obj fs, tail, _, fuel, hf => by
      obtain ⟨f, rfl⟩ : ∃ f, fuel = f + 1 := ⟨fuel - 1, by simp [jweight] at hf; omega⟩
      have hw : fieldsW fs ≤ f := by simp [jweight] at hf; omega
      have hser : ser (.obj fs) ++ tail = '\x7b' :: (serFieldsAux fs ++ '\x7d' :: tail) := by
        simp [ser]
      rw [hser, parseJ.eq_def]
      simp only [if_neg (show ¬('\x7b' = 'n') by decide),
        if_neg (show ¬('\x7b' = 't') by decide),
        if_neg (show ¬('\x7b' = 'f') by decide),
        if_neg (show ¬('\x7b' = '"') by decide),
        if_neg (show ¬('\x7b' = '[') by decide), if_pos rfl,
        parseFields_complete fs tail f hw]
      rfl

theorem parseItems_complete : (xs : List JValue) → (tail : List Char) →
    (fuel : Nat) → itemsW xs ≤ fuel →
    parseItems fuel (serItemsAux xs ++ ']' :: tail) = some (xs, tail)
  | [], tail, fuel, hf => by
      obtain ⟨f, rfl⟩ : ∃ f, fuel = f + 1 := ⟨fuel - 1, by simp [itemsW] at hf; omega⟩
      rw [show serItemsAux [] ++ ']' :: tail = ']' :: tail from rfl, parseItems.eq_def]
      simp
  | [x], tail, fuel, hf => by
      obtain ⟨f, rfl⟩ : ∃ f, fuel = f + 1 := ⟨fuel - 1, by simp [itemsW] at hf; omega⟩
      have hwx : jweight x ≤ f + 1 := by simp [itemsW] at hf; omega
      obtain ⟨c, t, hct, hcne⟩ := ser_head x
      have hser : serItemsAux [x] ++ ']' :: tail = c :: (t ++ ']' :: tail) := by
        rw [show serItemsAux [x] = ser x from rfl, hct]
        simp
      rw [hser, parseItems.eq_def]
      simp only [if_neg hcne]
      rw [show c :: (t ++ ']' :: tail) = ser x ++ ']' :: tail from by rw [hct]; simp]
      rw [parseJ_complete x (']' :: tail) (numGuard_cons (by decide) x _) (f + 1) hwx]
      simp only [Option.some_bind]
      simp
  | x :: y :: xs, tail, fuel, hf => by
      obtain ⟨f, rfl⟩ : ∃ f, fuel = f + 1 := ⟨fuel - 1, by simp [itemsW] at hf; omega⟩
      have hfm : max (jweight x) (1 + itemsW (y :: xs)) ≤ f + 1 := by
        simpa [itemsW] using hf
      have hwx : jweight x ≤ f + 1 := le_trans (le_max_left _ _) hfm
      have hwr : itemsW (y :: xs) ≤ f := by
        have := le_trans (le_max_right _ _) hfm
        omega
      obtain ⟨c, t, hct, hcne⟩ := ser_head x
      have hser : serItemsAux (x :: y :: xs) ++ ']' :: tail
          = c :: (t ++ (',' :: (serItemsAux (y :: xs) ++ ']' :: tail))) := by
        rw [show serItemsAux (x :: y :: xs) = ser x ++ ',' :: serItemsAux (y :: xs) from rfl,
          hct]
        simp
      rw [hser, parseItems.eq_def]
      simp only [if_neg hcne]
      rw [show c :: (t ++ (',' :: (serItemsAux (y :: xs) ++ ']' :: tail)))
          = ser x ++ (',' :: (serItemsAux (y :: xs) ++ ']' :: tail)) from by rw [hct]; simp]
      rw [parseJ_complete x (',' :: (serItemsAux (y :: xs) ++ ']' :: tail))
        (numGuard_cons (by decide) x _) (f + 1) hwx]
      simp only [Option.some_bind]
      simp only [if_true]
      rw [parseItems_complete (y :: xs) tail f hwr]
      rfl

theorem parseFields_complete : (fs : List (String × JValue)) → (tail : List Char) →
    (fuel : Nat) → fieldsW fs ≤ fuel →
    parseFields fuel (serFieldsAux fs ++ '\x7d' :: tail) = some (fs, tail)
  | [], tail, fuel, hf => by
      obtain ⟨f, rfl⟩ : ∃ f, fuel = f + 1 := ⟨fuel - 1, by simp [fieldsW] at hf; omega⟩
      rw [show serFieldsAux [] ++ '\x7d' :: tail = '\x7d' :: tail from rfl,
        parseFields.eq_def]
      simp
  | [(k, v)], tail, fuel, hf => by
      obtain ⟨f, rfl⟩ : ∃ f, fuel = f + 1 := ⟨fuel - 1, by simp [fieldsW] at hf; omega⟩
      have hwv : jweight v ≤ f + 1 := by simp [fieldsW] at hf; omega
      have hser : serFieldsAux [(k, v)] ++ '\x7d' :: tail
          = '"' :: (serStr k.data ++ '"' :: (':' :: (ser v ++ '\x7d' :: tail))) := by
        rw [show serFieldsAux [(k, v)]
            = '"' :: (serStr k.data ++ '"' :: ':' :: ser v) from rfl]
        simp
      rw [hser, parseFields.eq_def]
      simp only [if_neg (show ¬('"' = '\x7d') by decide), if_pos rfl,
        parseStr_complete k.data (':' :: (ser v ++ '\x7d' :: tail)),
        Option.some_bind]
      simp only [if_true]
      rw [parseJ_complete v ('\x7d' :: tail) (numGuard_cons (by decide) v _) (f + 1) hwv]
      simp only [Option.some_bind]
      simp
  | (k, v) :: g :: fs, tail, fuel, hf => by
      obtain ⟨f, rfl⟩ : ∃ f, fuel = f + 1 := ⟨fuel - 1, by simp [fieldsW] at hf; omega⟩
      have hfm : max (jweight v) (1 + fieldsW (g :: fs)) ≤ f + 1 := by
        simpa [fieldsW] using hf
      have hwv : jweight v ≤ f + 1 := le_trans (le_max_left _ _) hfm
      have hwr : fieldsW (g :: fs) ≤ f := by
        have := le_trans (le_max_right _ _) hfm
        omega
      have hser : serFieldsAux ((k, v) :: g :: fs) ++ '\x7d' :: tail
          = '"' :: (serStr k.data ++ '"' :: (':' :: (ser v
              ++ ',' :: (serFieldsAux (g :: fs) ++ '\x7d' :: tail)))) := by
        rw [show serFieldsAux ((k, v) :: g :: fs)
            = ('"' :: (serStr k.data ++ '"' :: ':' :: ser v)) ++ ',' :: serFieldsAux (g :: fs)
            from rfl]
        simp
      rw [hser, parseFields.eq_def]
      simp only [if_neg (show ¬('"' = '\x7d') by decide), if_pos rfl,
        parseStr_complete k.data (':' :: (ser v ++ ',' :: (serFieldsAux (g :: fs) ++ '\x7d' :: tail))),
        Option.some_bind]
      simp only [if_true]
      rw [parseJ_complete v (',' :: (serFieldsAux (g :: fs) ++ '\x7d' :: tail))
          (numGuard_cons (by decide) v _) (f + 1) hwv]
      simp only [Option.some_bind]
      simp only [if_true]
      rw [parseFields_complete (g :: fs) tail f hwr]
      rfl

end

mutual

theorem jweight_le_ser : ∀ v : JValue, jweight v ≤ (ser v).length + 1
  | .null => by simp [jweight, ser]
  | .bool b => by cases b <;> simp [jweight, ser]
  | .num n => by
      simp only [jweight]
      omega
  | .str s => by
      simp only [jweight]
      omega
  | .arr xs => by
      have h := itemsW_le_ser xs
      simp only [jweight, ser, List.length_cons, List.length_append,
        List.length_singleton]
      omega
  | .obj fs => by
      have h := fieldsW_le_ser fs
      simp only [jweight, ser, List.length_cons, List.length_append,
        List.length_singleton]
      omega

theorem itemsW_le_ser : ∀ xs : List JValue, itemsW xs ≤ (serItemsAux xs).length + 1
  | [] => by simp [itemsW, serItemsAux]
  | [x] => by
      have h := jweight_le_ser x
      simp only [itemsW, serItemsAux]
      omega
  | x :: y :: xs => by
      have h1 := jweight_le_ser x
      have h2 := itemsW_le_ser (y :: xs)
      simp only [itemsW, serItemsAux, List.length_append, List.length_cons]
      omega

theorem fieldsW_le_ser : ∀ fs : List (String × JValue),
    fieldsW fs ≤ (serFieldsAux fs).length + 1
  | [] => by simp [fieldsW, serFieldsAux]
  | [(k, v)] => by
      have h := jweight_le_ser v
      simp only [fieldsW, serFieldsAux, List.length_cons, List.length_append]
      omega
  | (k, v) :: g :: fs => by
      have h1 := jweight_le_ser v
      have h2 := fieldsW_le_ser (g :: fs)
      simp only [fieldsW, serFieldsAux, List.length_cons, List.length_append]
      omega

end

theorem json_loads_ser (v : JValue) : json_loads (ser v) = .ok v := by
  unfold json_loads
  have hng : numGuard v [] := by cases v <;> simp [numGuard, digStart]
  have h := parseJ_complete v [] hng ((ser v).length + 1)
    (le_trans (jweight_le_ser v) (by omega))
  rw [List.append_nil] at h
  rw [h]

theorem zlib_round_trip : ∀ s : List Char, zlib_decompress (zlib_compress s) = s
  | [] => rfl
  | c :: rest => by
      have ih := zlib_round_trip rest
      cases hcr : zlib_compress rest with
      | nil =>
          rw [hcr] at ih
          simp only [zlib_decompress] at ih
          simp only [zlib_compress, hcr]
          simp [zlib_decompress, ← ih]
      | cons nc t =>
          obtain ⟨n2, c2⟩ := nc
          rw [hcr] at ih
          by_cases hc : c2 = c
          · subst hc
            simp only [zlib_compress, hcr, if_pos rfl]
            simp only [zlib_decompress, List.replicate_succ] at ih ⊢
            simp [ih]
          · simp only [zlib_compress, hcr, if_neg hc]
            have ih2 : List.replicate n2 c2 ++ zlib_decompress t = rest := by
              simpa [zlib_decompress] using ih
            simp [zlib_decompress, ih2]

/-- C9: the codec round-trips — `process_result_value` after
`process_bind_param` returns the stored value unchanged, `None` included. -/
theorem codec_round_trip (v : Option JValue) :
    process_result_value (process_bind_param v) = .ok v := by
  cases v with
  | none => rfl
  | some x =>
      show (json_loads (zlib_decompress (zlib_compress (ser x)))).map some
        = .ok (some x)
      rw [zlib_round_trip, json_loads_ser]
      rfl


theorem dlookup_manyAugment_id (d : Doc) (i : Nat) (k : String) :
    dlookup "_id" (manyAugment d i k) = some (.num i) := by
  unfold manyAugment
  rw [dlookup_dinsert_ne (by decide), dlookup_dinsert_self]

theorem dlookup_manyAugment_key (d : Doc) (i : Nat) (k : String) :
    dlookup "_key" (manyAugment d i k) = some (.str k) := by
  unfold manyAugment
  rw [dlookup_dinsert_self]

theorem putAugment_eq (d : Doc) (i : Nat) (k : String) :
    putAugment d i k
      = dinsert "_updated" .null (dinsert "_rev" .null (manyAugment d i k)) := rfl

theorem dlookup_putAugment_id (d : Doc) (i : Nat) (k : String) :
    dlookup "_id" (putAugment d i k) = some (.num i) := by
  rw [putAugment_eq, dlookup_dinsert_ne (by decide), dlookup_dinsert_ne (by decide),
    dlookup_manyAugment_id]

theorem dlookup_putAugment_key (d : Doc) (i : Nat) (k : String) :
    dlookup "_key" (putAugment d i k) = some (.str k) := by
  rw [putAugment_eq, dlookup_dinsert_ne (by decide), dlookup_dinsert_ne (by decide),
    dlookup_manyAugment_key]

theorem rowIdVal_aug (kv iv : JValue) (row : Doc) :
    rowIdVal (dinsert "_key" kv (dinsert "_id" iv row)) = iv := by
  unfold rowIdVal
  rw [dlookup_dinsert_ne (by decide), dlookup_dinsert_self]
  rfl

theorem rowIdVal_manyAugment (d : Doc) (i : Nat) (k : String) :
    rowIdVal (manyAugment d i k) = .num i := by
  unfold rowIdVal
  rw [dlookup_manyAugment_id]
  rfl

theorem rowIdVal_putAugment (d : Doc) (i : Nat) (k : String) :
    rowIdVal (putAugment d i k) = .num i := by
  unfold rowIdVal
  rw [dlookup_putAugment_id]
  rfl

theorem rowIdVal_expectedRows (m : Doc → List Doc) (r : DRow) :
    ∀ row ∈ expectedRows m r, rowIdVal row = .num r.id := by
  intro row hrow
  unfold expectedRows at hrow
  obtain ⟨row0, _, rfl⟩ := List.mem_map.mp hrow
  exact rowIdVal_aug _ _ _

theorem map_docs_putAugment (m : Doc → List Doc) (hru : ruInsensitive m)
    (r : DRow) :
    map_docs m [putAugment r.data r.id r.key] = expectedRows m r := by
  unfold map_docs expectedRows
  simp only [List.map_cons, List.map_nil, List.flatten_cons, List.flatten_nil,
    List.append_nil]
  rw [dlookup_putAugment_id, dlookup_putAugment_key]
  rw [putAugment_eq]
  rw [hru (manyAugment r.data r.id r.key)]
  rfl

theorem map_docs_manyAugment (m : Doc → List Doc) :
    ∀ B : List DRow,
    map_docs m (B.map (fun r => manyAugment r.data r.id r.key)) = expectedTable m B := by
  intro B
  unfold map_docs expectedTable
  rw [List.map_map]
  congr 1
  apply List.map_congr_left
  intro r _
  simp only [Function.comp]
  rw [dlookup_manyAugment_id, dlookup_manyAugment_key]
  rfl

theorem expectedTable_append (m : Doc → List Doc) (A B : List DRow) :
    expectedTable m (A ++ B) = expectedTable m A ++ expectedTable m B := by
  unfold expectedTable
  rw [List.map_append, List.flatten_append]

theorem expectedTable_perm (m : Doc → List Doc) {T T2 : List DRow}
    (h : T.Perm T2) : (expectedTable m T).Perm (expectedTable m T2) :=
  (h.map _).flatten

theorem numOf_eq (i : Nat) : numOf i = JValue.num i := rfl

theorem num_mem_map_iff (i : Nat) (I : List Nat) :
    (numOf i ∈ I.map numOf) ↔ i ∈ I := by
  constructor
  · intro h
    obtain ⟨j, hj, hji⟩ := List.mem_map.mp h
    have hc : Int.ofNat j = Int.ofNat i := by
      unfold numOf at hji
      injection hji
    have : j = i := by injection hc
    subst this
    exact hj
  · exact fun h => List.mem_map.mpr ⟨i, h, rfl⟩

theorem contains_num_map (I : List Nat) (i : Nat) :
    ((I.map numOf).contains (numOf i)) = I.contains i := by
  simp only [List.contains, List.elem_eq_mem]
  rw [decide_eq_decide]
  exact num_mem_map_iff i I

theorem expectedTable_filter_ids (m : Doc → List Doc) (I : List Nat) :
    ∀ T : List DRow,
    (expectedTable m T).filter (fun row => !((I.map numOf).contains (rowIdVal row)))
      = expectedTable m (T.filter (fun r => !(I.contains r.id))) := by
  intro T
  unfold expectedTable
  rw [List.filter_flatten, List.map_map]
  induction T with
  | nil => rfl
  | cons r T ih =>
      simp only [List.map_cons, List.flatten_cons, List.filter_cons, Function.comp]
      by_cases hq : I.contains r.id
      · have hrows : (expectedRows m r).filter
            (fun row => !((I.map numOf).contains (rowIdVal row))) = [] := by
          rw [List.filter_eq_nil_iff]
          intro row hrow
          rw [rowIdVal_expectedRows m r row hrow, ← numOf_eq, contains_num_map, hq]
          simp
        rw [hrows, hq]
        simp only [Bool.not_true, List.nil_append]
        exact ih
      · have hqf : I.contains r.id = false := by
          simpa using hq
        have hrows : (expectedRows m r).filter
            (fun row => !((I.map numOf).contains (rowIdVal row)))
            = expectedRows m r := by
          rw [List.filter_eq_self]
          intro row hrow
          rw [rowIdVal_expectedRows m r row hrow, ← numOf_eq, contains_num_map, hqf]
          simp
        rw [hrows, hqf]
        simp only [Bool.not_false, if_true, List.map_cons, List.flatten_cons]
        rw [ih]

theorem expectedTable_singleton (m : Doc → List Doc) (r : DRow) :
    expectedTable m [r] = expectedRows m r := by
  simp [expectedTable]

/-- The delete-then-insert pass moves a consistent view table from the old
primary table to the new one, whenever the mapped batch accounts exactly
for the rows whose ids the pass deletes. -/
theorem update_view_moves_consistency (m : Doc → List Doc) (vt : List Doc)
    (T T2 B : List DRow) (docs : List Doc) (I : List Nat)
    (hcons : viewConsistent m vt T)
    (hdocs : map_docs m docs = expectedTable m B)
    (hids : docs.map rowIdVal = I.map numOf)
    (hT2 : T2.Perm (T.filter (fun r => !(I.contains r.id)) ++ B)) :
    viewConsistent m (update_view m vt docs) T2 := by
  rcases eq_or_ne docs [] with rfl | hne
  · have hInil : I = [] := by
      have h0 : I.map numOf = [] := by
        rw [← hids]
        rfl
      exact List.map_eq_nil_iff.mp h0
    subst hInil
    have hBnil : expectedTable m B = [] := by
      rw [← hdocs]
      rfl
    have hTf : T.filter (fun r => !(([] : List Nat).contains r.id)) = T :=
      List.filter_eq_self.mpr (fun r _ => by simp [List.contains])
    rw [hTf] at hT2
    show vt.Perm (expectedTable m T2)
    refine hcons.trans (List.Perm.trans ?_ (expectedTable_perm m hT2.symm))
    rw [expectedTable_append, hBnil, List.append_nil]
  · rw [show update_view m vt docs
        = vt.filter (fun row => !((docs.map rowIdVal).contains (rowIdVal row)))
          ++ map_docs m docs from update_view_ne hne]
    show List.Perm _ (expectedTable m T2)
    simp only [hids]
    have h1 : (vt.filter (fun row => !((I.map numOf).contains (rowIdVal row)))).Perm
        (expectedTable m (T.filter (fun r => !(I.contains r.id)))) := by
      refine (hcons.filter _).trans ?_
      rw [expectedTable_filter_ids]
    have h2 : (map_docs m docs).Perm (expectedTable m B) := List.Perm.of_eq hdocs
    refine List.Perm.trans (h1.append h2) ?_
    rw [← expectedTable_append]
    exact expectedTable_perm m hT2.symm

theorem findRow_some_spec {T : List DRow} {k : String} {row0 : DRow}
    (h : findRow T k = some row0) : row0 ∈ T ∧ row0.key = k := by
  refine ⟨List.mem_of_find?_eq_some h, ?_⟩
  have := List.find?_some h
  simpa using this

theorem findRow_none_spec {T : List DRow} {k : String}
    (h : findRow T k = none) : ∀ r ∈ T, r.key ≠ k := by
  intro r hr
  have := List.find?_eq_none.mp h r hr
  simpa using this

theorem map_update_perm (T : List DRow) (row0 : DRow) (f : DRow → DRow) :
    (T.map DRow.id).Nodup → row0 ∈ T → (∀ r ∈ T, r ≠ row0 → f r = r) →
    (T.map f).Perm (T.filter (fun r => !(decide (r.id = row0.id))) ++ [f row0]) := by
  induction T with
  | nil => intro _ hmem _; cases hmem
  | cons r T ih =>
      intro hnd hmem hf
      rw [List.map_cons, List.filter_cons]
      simp only [List.map_cons, List.nodup_cons] at hnd
      by_cases hr : r = row0
      · subst hr
        have hrT : ∀ t ∈ T, t ≠ r := by
          intro t ht heq
          exact hnd.1 (heq ▸ List.mem_map_of_mem DRow.id ht)
        have hmap : T.map f = T := by
          have : ∀ t ∈ T, f t = t := fun t ht => hf t (List.mem_cons_of_mem r ht) (hrT t ht)
          calc T.map f = T.map id := List.map_congr_left (fun t ht => this t ht)
            _ = T := List.map_id T
        have hfilt : T.filter (fun t => !(decide (t.id = r.id))) = T := by
          refine List.filter_eq_self.mpr (fun t ht => ?_)
          have : t.id ≠ r.id := by
            intro he
            exact hnd.1 (he ▸ List.mem_map_of_mem DRow.id ht)
          simp [this]
        rw [hmap, hfilt]
        rw [show (decide (r.id = r.id)) = true by simp]
        simp only [Bool.not_true, Bool.false_eq_true, if_false]
        exact (List.perm_append_singleton _ _).symm
      · have hfr : f r = r := hf r (List.mem_cons_self r T) hr
        have hrow0T : row0 ∈ T := by
          rcases List.mem_cons.mp hmem with h1 | h1
          · exact absurd h1.symm hr
          · exact h1
        have hid : ¬(r.id = row0.id) := by
          intro he
          exact hnd.1 (he ▸ List.mem_map_of_mem DRow.id hrow0T)
        rw [hfr, show (decide (r.id = row0.id)) = false by simp [hid]]
        simp only [Bool.not_false, if_true, List.cons_append]
        exact (ih hnd.2 hrow0T
          (fun t ht hne => hf t (List.mem_cons_of_mem r ht) hne)).cons r

theorem put_inv (s : StoreState) (k : String) (d : Doc) (hinv : Inv s) :
    Inv (put s k d).1 := by
  obtain ⟨hwf, hviews⟩ := hinv
  cases hfind : findRow s.table k with
  | none =>
      have hfresh : ∀ r ∈ s.table, r.key ≠ k := findRow_none_spec hfind
      have htab : (put s k d).1.table
          = s.table ++ [⟨s.nextId, some "0", none, k, d⟩] := by
        simp [put, hfind]
      have hnext : (put s k d).1.nextId = s.nextId + 1 := by
        simp [put, hfind]
      have hviews2 : (put s k d).1.views
          = update_views [putAugment d s.nextId k] s.views := by
        simp [put, hfind]
      constructor
      · refine ⟨?_, ?_, ?_⟩
        · rw [htab]
          simp only [List.map_append, List.map_cons, List.map_nil]
          rw [List.nodup_append]
          refine ⟨hwf.keysNodup, List.nodup_singleton k, fun a ha hb => ?_⟩
          obtain ⟨r, hr, rfl⟩ := List.mem_map.mp ha
          exact hfresh r hr (List.mem_singleton.mp hb)
        · rw [htab]
          simp only [List.map_append, List.map_cons, List.map_nil]
          rw [List.nodup_append]
          refine ⟨hwf.idsNodup, List.nodup_singleton _, fun a ha hb => ?_⟩
          obtain ⟨r, hr, rfl⟩ := List.mem_map.mp ha
          exact Nat.ne_of_lt (hwf.idsLt r hr) (List.mem_singleton.mp hb)
        · rw [htab, hnext]
          intro r hr
          rcases List.mem_append.mp hr with h1 | h1
          · exact Nat.lt_succ_of_lt (hwf.idsLt r h1)
          · rw [List.mem_singleton.mp h1]
            exact Nat.lt_succ_self _
      · intro nv hnv hru
        rw [hviews2] at hnv
        obtain ⟨nv0, hnv0, rfl⟩ := List.mem_map.mp hnv
        simp only
        rw [htab]
        have hdoc : putAugment d s.nextId k
            = putAugment (⟨s.nextId, some "0", none, k, d⟩ : DRow).data
                (⟨s.nextId, some "0", none, k, d⟩ : DRow).id
                (⟨s.nextId, some "0", none, k, d⟩ : DRow).key := rfl
        rw [hdoc]
        refine update_view_moves_consistency nv0.2.map nv0.2.table s.table _
          [⟨s.nextId, some "0", none, k, d⟩] _ [s.nextId]
          (hviews nv0 hnv0 hru)
          ((map_docs_putAugment nv0.2.map hru ⟨s.nextId, some "0", none, k, d⟩).trans
            (expectedTable_singleton nv0.2.map _).symm)
          (by simp [rowIdVal_putAugment, numOf_eq]) ?_
        have hTf : s.table.filter (fun r => !(([s.nextId] : List Nat).contains r.id))
            = s.table := by
          refine List.filter_eq_self.mpr (fun r hr => ?_)
          have hne : r.id ≠ s.nextId := Nat.ne_of_lt (hwf.idsLt r hr)
          simp [List.contains, hne]
        rw [hTf]
  | some row0 =>
      obtain ⟨hmem, hkey⟩ := findRow_some_spec hfind
      have htab : (put s k d).1.table
          = s.table.map (fun r =>
              if r.key = k then ⟨r.id, some "0", r.updated, r.key, d⟩ else r) := by
        simp [put, hfind]
      have hnext : (put s k d).1.nextId = s.nextId := by
        simp [put, hfind]
      have hviews2 : (put s k d).1.views
          = update_views [putAugment d row0.id k] s.views := by
        simp [put, hfind]
      set f : DRow → DRow := fun r =>
        if r.key = k then ⟨r.id, some "0", r.updated, r.key, d⟩ else r with hff
      have hfid : ∀ r, (f r).id = r.id := by
        intro r
        by_cases hrk : r.key = k <;> simp [hff, hrk]
      have hfkey : ∀ r, (f r).key = r.key := by
        intro r
        by_cases hrk : r.key = k <;> simp [hff, hrk]
      have hfother : ∀ r ∈ s.table, r ≠ row0 → f r = r := by
        intro r hr hne
        have : r.key ≠ k := by
          intro he
          exact hne (List.inj_on_of_nodup_map hwf.keysNodup hr hmem
            (by rw [he, hkey]))
        simp [hff, this]
      have hperm : ((put s k d).1.table).Perm
          (s.table.filter (fun r => !(decide (r.id = row0.id))) ++ [f row0]) := by
        rw [htab]
        exact map_update_perm s.table row0 f hwf.idsNodup hmem hfother
      constructor
      · refine ⟨?_, ?_, ?_⟩
        · rw [htab, List.map_map]
          have he : (DRow.key ∘ f) = DRow.key := funext fun r => hfkey r
          rw [he]
          exact hwf.keysNodup
        · rw [htab, List.map_map]
          have he : (DRow.id ∘ f) = DRow.id := funext fun r => hfid r
          rw [he]
          exact hwf.idsNodup
        · rw [htab, hnext]
          intro r hr
          obtain ⟨r0, hr0, rfl⟩ := List.mem_map.mp hr
          rw [show (f r0).id = r0.id from hfid r0]
          exact hwf.idsLt r0 hr0
      · intro nv hnv hru
        rw [hviews2] at hnv
        obtain ⟨nv0, hnv0, rfl⟩ := List.mem_map.mp hnv
        simp only
        have hfrow0 : f row0 = ⟨row0.id, some "0", row0.updated, k, d⟩ := by
          simp [hff, hkey]
        have hdoc : putAugment d row0.id k
            = putAugment (f row0).data (f row0).id (f row0).key := by
          rw [hfrow0]
        rw [hdoc]
        refine update_view_moves_consistency nv0.2.map nv0.2.table s.table _
          [f row0] _ [row0.id]
          (hviews nv0 hnv0 hru)
          ((map_docs_putAugment nv0.2.map hru (f row0)).trans
            (expectedTable_singleton nv0.2.map _).symm)
          ?_ ?_
        · simp only [List.map_cons, List.map_nil, rowIdVal_putAugment, numOf_eq]
          rw [show (f row0).id = row0.id from hfid row0]
        · have hcontains : (fun r : DRow => !(([row0.id] : List Nat).contains r.id))
              = (fun r : DRow => !(decide (r.id = row0.id))) := by
            funext r
            simp [List.contains]
          rw [hcontains]
          exact hperm

theorem alookup_isSome_iff {α : Type} (k : String) :
    ∀ l : List (String × α), (alookup k l).isSome ↔ k ∈ l.map Prod.fst := by
  intro l
  induction l with
  | nil => simp [alookup]
  | cons kd l ih =>
      by_cases hk : kd.1 = k
      · simp [alookup, hk]
      · simp only [alookup, if_neg hk, List.map_cons, List.mem_cons, ih]
        constructor
        · exact fun h => Or.inr h
        · rintro (h | h)
          · exact absurd h.symm hk
          · exact h

theorem alookup_eq_none_of_not_mem {α : Type} {k : String} {l : List (String × α)}
    (h : k ∉ l.map Prod.fst) : alookup k l = none := by
  cases ha : alookup k l with
  | none => rfl
  | some v =>
      exact absurd ((alookup_isSome_iff k l).mp (by rw [ha]; rfl)) h

theorem alookup_of_mem_nodup {α : Type} {l : List (String × α)}
    (hnd : (l.map Prod.fst).Nodup) {k : String} {v : α} (hmem : (k, v) ∈ l) :
    alookup k l = some v := by
  induction l with
  | nil => cases hmem
  | cons kd l ih =>
      simp only [List.map_cons, List.nodup_cons] at hnd
      rcases List.mem_cons.mp hmem with h1 | h1
      · cases h1
        simp [alookup]
      · have hne : kd.1 ≠ k := by
          intro he
          exact hnd.1 (he ▸ List.mem_map_of_mem Prod.fst h1)
        simp only [alookup, if_neg hne]
        exact ih hnd.2 h1

theorem alookup_filter (q : String → Bool) :
    ∀ (l : List (String × Doc)) (k : String),
    alookup k (l.filter (fun kd => q kd.1)) = if q k then alookup k l else none := by
  intro l k
  induction l with
  | nil => simp [alookup]
  | cons kd l ih =>
      rw [List.filter_cons]
      by_cases hq : q kd.1
      · rw [if_pos hq]
        by_cases hk : kd.1 = k
        · subst hk
          simp [alookup, hq]
        · simp only [alookup, if_neg hk, ih]
      · rw [if_neg (by simpa using hq)]
        by_cases hk : kd.1 = k
        · subst hk
          simp [alookup, ih, hq]
        · simp only [alookup, if_neg hk, ih]

theorem foldl_update_closed :
    ∀ (P : List (String × Doc)), (P.map Prod.fst).Nodup →
    ∀ T : List DRow,
    P.foldl (fun tb kd => tb.map (fun r =>
      if r.key = kd.1 then ⟨r.id, some "0", r.updated, r.key, kd.2⟩ else r)) T
    = T.map (fun r =>
        match alookup r.key P with
        | some dd => ⟨r.id, some "0", r.updated, r.key, dd⟩
        | none => r) := by
  intro P
  induction P with
  | nil =>
      intro _ T
      simp [alookup]
  | cons kd P ih =>
      intro hnd T
      simp only [List.map_cons, List.nodup_cons] at hnd
      rw [List.foldl_cons, ih hnd.2, List.map_map]
      apply List.map_congr_left
      intro r _
      simp only [Function.comp]
      by_cases hrk : r.key = kd.1
      · have hnone : alookup r.key P = none := by
          rw [hrk]
          exact alookup_eq_none_of_not_mem hnd.1
        simp only [if_pos hrk, hnone]
        have halk : alookup r.key (kd :: P) = some kd.2 := by
          rw [show alookup r.key (kd :: P)
            = if kd.1 = r.key then some kd.2 else alookup r.key P from rfl,
            if_pos hrk.symm]
        rw [halk]
      · have halk : alookup r.key (kd :: P) = alookup r.key P := by
          rw [show alookup r.key (kd :: P)
            = if kd.1 = r.key then some kd.2 else alookup r.key P from rfl,
            if_neg (fun h => hrk h.symm)]
        rw [halk]
        simp only [if_neg hrk]

theorem ainsert_append {α : Type} (k : String) (v : α) :
    ∀ acc : List (String × α), k ∉ acc.map Prod.fst →
    ainsert k v acc = acc ++ [(k, v)] := by
  intro acc
  induction acc with
  | nil => intro _; rfl
  | cons kd acc ih =>
      intro h
      simp only [List.map_cons, List.mem_cons, not_or] at h
      rw [show ainsert k v (kd :: acc)
        = if kd.1 = k then (k, v) :: acc else kd :: ainsert k v acc from rfl]
      rw [if_neg (fun he => h.1 he.symm), ih h.2, List.cons_append]

theorem foldl_ainsert_eq_map (g : Nat × String → Doc) :
    ∀ (items : List (Nat × String)) (acc : List (String × Doc)),
    (items.map Prod.snd).Nodup → (∀ ik ∈ items, ik.2 ∉ acc.map Prod.fst) →
    items.foldl (fun acc ik => ainsert ik.2 (g ik) acc) acc
      = acc ++ items.map (fun ik => (ik.2, g ik)) := by
  intro items
  induction items with
  | nil => intro acc _ _; simp
  | cons ik items ih =>
      intro acc hnd hdisj
      simp only [List.map_cons, List.nodup_cons] at hnd
      rw [List.foldl_cons, ainsert_append ik.2 (g ik) acc
        (hdisj ik (List.mem_cons_self _ _))]
      rw [ih (acc ++ [(ik.2, g ik)]) hnd.2 ?_]
      · simp
      · intro jk hjk
        simp only [List.map_append, List.mem_append, List.map_cons, List.map_nil,
          List.mem_singleton, not_or]
        refine ⟨fun h => hdisj jk (List.mem_cons_of_mem _ hjk) h, fun h => ?_⟩
        exact hnd.1 (h ▸ List.mem_map_of_mem Prod.snd hjk)

theorem applyMapping_key (mapping : List (String × Doc)) (r : DRow) :
    (applyMapping mapping r).key = r.key := by
  unfold applyMapping
  cases alookup r.key mapping <;> rfl

theorem applyMapping_id (mapping : List (String × Doc)) (r : DRow) :
    (applyMapping mapping r).id = r.id := by
  unfold applyMapping
  cases alookup r.key mapping <;> rfl

theorem newRowsOf_keys (T : List DRow) (nid : Nat) (mapping : List (String × Doc)) :
    (newRowsOf T nid mapping).map DRow.key = (newParamsOf T mapping).map Prod.fst := by
  unfold newRowsOf
  rw [List.map_map]
  have h1 : (DRow.key ∘ fun ikd : Nat × (String × Doc) =>
      (⟨nid + ikd.1, some "0", none, ikd.2.1, ikd.2.2⟩ : DRow))
      = (Prod.fst ∘ Prod.snd) := rfl
  rw [h1, ← List.map_map, List.enum_map_snd]

theorem newRowsOf_ids (T : List DRow) (nid : Nat) (mapping : List (String × Doc)) :
    (newRowsOf T nid mapping).map DRow.id
      = (List.range (newParamsOf T mapping).length).map (fun i => nid + i) := by
  unfold newRowsOf
  rw [List.map_map]
  have h1 : (DRow.id ∘ fun ikd : Nat × (String × Doc) =>
      (⟨nid + ikd.1, some "0", none, ikd.2.1, ikd.2.2⟩ : DRow))
      = ((fun i => nid + i) ∘ Prod.fst) := rfl
  rw [h1, ← List.map_map, List.enum_map_fst]

theorem canonTable_keys (T : List DRow) (nid : Nat) (mapping : List (String × Doc)) :
    (canonTable T nid mapping).map DRow.key
      = T.map DRow.key ++ (newParamsOf T mapping).map Prod.fst := by
  unfold canonTable
  rw [List.map_append, List.map_map, newRowsOf_keys]
  congr 1
  exact List.map_congr_left (fun r _ => applyMapping_key mapping r)

theorem newParams_key_not_in_table {T : List DRow} {mapping : List (String × Doc)}
    {kd : String × Doc} (h : kd ∈ newParamsOf T mapping) :
    kd.1 ∉ T.map DRow.key := by
  unfold newParamsOf at h
  have h2 := (List.mem_filter.mp h).2
  intro hmem
  rw [show tableKeys T = T.map DRow.key from rfl] at h2
  simp only [List.contains, List.elem_eq_mem, hmem] at h2
  simp at h2

theorem canonTable_keys_nodup {T : List DRow} {mapping : List (String × Doc)}
    (hk : (T.map DRow.key).Nodup) (hmnd : (mapping.map Prod.fst).Nodup)
    (nid : Nat) : ((canonTable T nid mapping).map DRow.key).Nodup := by
  rw [canonTable_keys, List.nodup_append]
  refine ⟨hk, ?_, ?_⟩
  · exact hmnd.sublist (List.Sublist.map Prod.fst (List.filter_sublist mapping))
  · intro a ha hb
    obtain ⟨kd, hkd, rfl⟩ := List.mem_map.mp hb
    exact newParams_key_not_in_table hkd ha

theorem canonTable_ids_nodup {T : List DRow} (hi : (T.map DRow.id).Nodup)
    (hlt : ∀ r ∈ T, r.id < nid) (mapping : List (String × Doc)) :
    ((canonTable T nid mapping).map DRow.id).Nodup := by
  unfold canonTable
  rw [List.map_append, List.map_map, newRowsOf_ids]
  have h1 : (DRow.id ∘ applyMapping mapping) = DRow.id :=
    funext fun r => applyMapping_id mapping r
  rw [h1, List.nodup_append]
  refine ⟨hi, ?_, ?_⟩
  · exact (List.nodup_range _).map (fun a b hab => by omega)
  · intro a ha hb
    obtain ⟨r, hr, rfl⟩ := List.mem_map.mp ha
    obtain ⟨i, _, hieq⟩ := List.mem_map.mp hb
    have := hlt r hr
    omega

theorem canonTable_ids_lt {T : List DRow} (hlt : ∀ r ∈ T, r.id < nid)
    (mapping : List (String × Doc)) :
    ∀ r ∈ canonTable T nid mapping, r.id < nid + (newParamsOf T mapping).length := by
  intro r hr
  unfold canonTable at hr
  rcases List.mem_append.mp hr with h1 | h1
  · obtain ⟨t, ht, rfl⟩ := List.mem_map.mp h1
    rw [applyMapping_id]
    exact Nat.lt_of_lt_of_le (hlt t ht) (Nat.le_add_right _ _)
  · unfold newRowsOf at h1
    obtain ⟨ikd, hikd, rfl⟩ := List.mem_map.mp h1
    simp only
    have : ikd.1 < (newParamsOf T mapping).length := by
      have h2 : ikd.1 ∈ (newParamsOf T mapping).enum.map Prod.fst :=
        List.mem_map_of_mem Prod.fst hikd
      rw [List.enum_map_fst] at h2
      exact List.mem_range.mp h2
    omega

theorem contains_iff {α : Type} [BEq α] [LawfulBEq α] (l : List α) (a : α) :
    l.contains a = true ↔ a ∈ l := by
  simp [List.contains, List.elem_iff]

theorem contains_false_iff {α : Type} [BEq α] [LawfulBEq α] (l : List α) (a : α) :
    l.contains a = false ↔ a ∉ l := by
  rw [← Bool.not_eq_true, not_iff_not]
  exact contains_iff l a

theorem mem_canonTable_alookup {T : List DRow} {mapping : List (String × Doc)}
    (hmnd : (mapping.map Prod.fst).Nodup) {nid : Nat} {r : DRow}
    (hr : r ∈ canonTable T nid mapping)
    (hc : (mapping.map Prod.fst).contains r.key = true) :
    alookup r.key mapping = some r.data := by
  rcases List.mem_append.mp hr with h1 | h1
  · obtain ⟨t, ht, rfl⟩ := List.mem_map.mp h1
    rw [applyMapping_key] at hc ⊢
    cases halk : alookup t.key mapping with
    | some dd =>
        have hdata : (applyMapping mapping t).data = dd := by
          unfold applyMapping
          rw [halk]
        rw [hdata]
    | none =>
        have := (alookup_isSome_iff t.key mapping).mpr ((contains_iff _ _).mp hc)
        rw [halk] at this
        cases this
  · unfold newRowsOf at h1
    obtain ⟨ikd, hikd, rfl⟩ := List.mem_map.mp h1
    have hkd : ikd.2 ∈ newParamsOf T mapping := by
      have := List.mem_map_of_mem Prod.snd hikd
      rwa [List.enum_map_snd] at this
    have hkdm : ikd.2 ∈ mapping := List.mem_of_mem_filter hkd
    have : alookup ikd.2.1 mapping = some ikd.2.2 := by
      have hp : (ikd.2.1, ikd.2.2) = ikd.2 := rfl
      exact alookup_of_mem_nodup hmnd (hp ▸ hkdm)
    exact this

theorem put_many_closed (s : StoreState) (mapping : List (String × Doc))
    (hmnd : (mapping.map Prod.fst).Nodup) (hk : (s.table.map DRow.key).Nodup) :
    (put_many s mapping).table = canonTable s.table s.nextId mapping ∧
    (put_many s mapping).nextId = s.nextId + (newParamsOf s.table mapping).length ∧
    (put_many s mapping).views = update_views
      (((canonTable s.table s.nextId mapping).filter
          (fun r => (mapping.map Prod.fst).contains r.key)).map
        (fun r => manyAugment r.data r.id r.key)) s.views := by
  have hupnd : ((mapping.filter (fun kd =>
      (((s.table.filter (fun r => (mapping.map Prod.fst).contains r.key)).map
        DRow.key).contains kd.1))).map Prod.fst).Nodup :=
    hmnd.sublist (List.Sublist.map _ (List.filter_sublist _))
  have htable1 : (mapping.filter (fun kd =>
      (((s.table.filter (fun r => (mapping.map Prod.fst).contains r.key)).map
        DRow.key).contains kd.1))).foldl (fun tb kd => tb.map (fun r =>
      if r.key = kd.1 then ⟨r.id, some "0", r.updated, r.key, kd.2⟩ else r)) s.table
      = s.table.map (applyMapping mapping) := by
    rw [foldl_update_closed _ hupnd s.table]
    apply List.map_congr_left
    intro r hr
    rw [alookup_filter (fun k0 =>
      (((s.table.filter (fun r => (mapping.map Prod.fst).contains r.key)).map
        DRow.key).contains k0)) mapping r.key]
    by_cases hc : (mapping.map Prod.fst).contains r.key
    · have hin : (((s.table.filter (fun r =>
          (mapping.map Prod.fst).contains r.key)).map DRow.key).contains r.key) = true :=
        (contains_iff _ _).mpr
          (List.mem_map_of_mem DRow.key (List.mem_filter.mpr ⟨hr, hc⟩))
      rw [if_pos hin]
      rfl
    · have hnin : (((s.table.filter (fun r =>
          (mapping.map Prod.fst).contains r.key)).map DRow.key).contains r.key) = false := by
        rw [contains_false_iff]
        intro hmem
        obtain ⟨t, ht, hteq⟩ := List.mem_map.mp hmem
        have := (List.mem_filter.mp ht).2
        rw [hteq] at this
        exact hc this
      rw [if_neg (by rw [hnin]; simp)]
      have hnone : alookup r.key mapping = none := by
        apply alookup_eq_none_of_not_mem
        intro hmem
        exact hc ((contains_iff _ _).mpr hmem)
      unfold applyMapping
      rw [hnone]
  have hnewp : mapping.filter (fun kd =>
      !(((s.table.filter (fun r => (mapping.map Prod.fst).contains r.key)).map
        DRow.key).contains kd.1)) = newParamsOf s.table mapping := by
    apply List.filter_congr
    intro kd hkd
    congr 1
    by_cases hc : kd.1 ∈ s.table.map DRow.key
    · have h1 : (((s.table.filter (fun r =>
          (mapping.map Prod.fst).contains r.key)).map DRow.key).contains kd.1) = true := by
        rw [contains_iff]
        obtain ⟨t, ht, hteq⟩ := List.mem_map.mp hc
        refine List.mem_map.mpr ⟨t, List.mem_filter.mpr ⟨ht, ?_⟩, hteq⟩
        rw [hteq]
        exact (contains_iff _ _).mpr (List.mem_map_of_mem Prod.fst hkd)
      have h2 : ((tableKeys s.table).contains kd.1) = true :=
        (contains_iff _ _).mpr hc
      rw [h1, h2]
    · have h1 : (((s.table.filter (fun r =>
          (mapping.map Prod.fst).contains r.key)).map DRow.key).contains kd.1) = false := by
        rw [contains_false_iff]
        intro hmem
        obtain ⟨t, ht, hteq⟩ := List.mem_map.mp hmem
        exact hc (List.mem_map.mpr ⟨t, (List.mem_filter.mp ht).1, hteq⟩)
      have h2 : ((tableKeys s.table).contains kd.1) = false :=
        (contains_false_iff _ _).mpr hc
      rw [h1, h2]
  have htab : (put_many s mapping).table = canonTable s.table s.nextId mapping := by
    show (mapping.filter _).foldl _ s.table ++ _ = _
    unfold canonTable newRowsOf
    rw [htable1, hnewp]
  have hfold : ((((canonTable s.table s.nextId mapping).filter
      (fun r => (mapping.map Prod.fst).contains r.key)).map
        (fun r => (r.id, r.key))).foldl
        (fun acc ik => ainsert ik.2
          (manyAugment ((alookup ik.2 mapping).getD []) ik.1 ik.2) acc) []).map Prod.snd
      = ((canonTable s.table s.nextId mapping).filter
          (fun r => (mapping.map Prod.fst).contains r.key)).map
        (fun r => manyAugment r.data r.id r.key) := by
    have hBnd : ((((canonTable s.table s.nextId mapping).filter
        (fun r => (mapping.map Prod.fst).contains r.key)).map
          (fun r => (r.id, r.key))).map Prod.snd).Nodup := by
      rw [List.map_map]
      have he : (Prod.snd ∘ fun r : DRow => (r.id, r.key)) = DRow.key := rfl
      rw [he]
      exact (canonTable_keys_nodup hk hmnd s.nextId).sublist
        (List.Sublist.map DRow.key (List.filter_sublist _))
    rw [foldl_ainsert_eq_map _ _ [] hBnd (by simp)]
    rw [List.nil_append, List.map_map, List.map_map]
    apply List.map_congr_left
    intro r hr
    simp only [Function.comp]
    have halk : alookup r.key mapping = some r.data :=
      mem_canonTable_alookup hmnd (List.mem_filter.mp hr).1 (List.mem_filter.mp hr).2
    rw [halk]
    rfl
  refine ⟨htab, ?_, ?_⟩
  · show s.nextId + (mapping.filter _).length = _
    rw [hnewp]
  · unfold put_many
    simp only []
    rw [htable1, hnewp]
    exact congrArg (fun docs => update_views docs s.views) hfold

theorem map_applyMapping_filter_not_keyed (mapping : List (String × Doc)) :
    ∀ T : List DRow,
    (T.map (applyMapping mapping)).filter
        (fun r => !((mapping.map Prod.fst).contains r.key))
      = T.filter (fun r => !((mapping.map Prod.fst).contains r.key)) := by
  intro T
  induction T with
  | nil => rfl
  | cons t T ih =>
      rw [List.map_cons, List.filter_cons, List.filter_cons, applyMapping_key]
      by_cases hc : (mapping.map Prod.fst).contains t.key = true
      · rw [hc]
        simp only [Bool.not_true, Bool.false_eq_true, if_false]
        exact ih
      · have hcf : (mapping.map Prod.fst).contains t.key = false :=
          Bool.eq_false_iff.mpr hc
        rw [hcf]
        simp only [Bool.not_false, if_true]
        have hnone : alookup t.key mapping = none := by
          apply alookup_eq_none_of_not_mem
          intro hmem
          exact hc ((contains_iff _ _).mpr hmem)
        have ht : applyMapping mapping t = t := by
          unfold applyMapping
          rw [hnone]
        rw [ht, ih]

theorem canonTable_filter_not_keyed (T : List DRow) (mapping : List (String × Doc))
    (nid : Nat) :
    (canonTable T nid mapping).filter
        (fun r => !((mapping.map Prod.fst).contains r.key))
      = T.filter (fun r => !((mapping.map Prod.fst).contains r.key)) := by
  unfold canonTable
  rw [List.filter_append]
  have hnew : (newRowsOf T nid mapping).filter
      (fun r => !((mapping.map Prod.fst).contains r.key)) = [] := by
    rw [List.filter_eq_nil_iff]
    intro r hr
    unfold newRowsOf at hr
    obtain ⟨ikd, hikd, rfl⟩ := List.mem_map.mp hr
    have hkd2 : ikd.2 ∈ mapping :=
      List.mem_of_mem_filter (show ikd.2 ∈ newParamsOf T mapping from by
        have := List.mem_map_of_mem Prod.snd hikd
        rwa [List.enum_map_snd] at this)
    have hc : (mapping.map Prod.fst).contains ikd.2.1 = true :=
      (contains_iff _ _).mpr (List.mem_map_of_mem Prod.fst hkd2)
    show ¬ ((!((mapping.map Prod.fst).contains ikd.2.1)) = true)
    rw [hc]
    simp
  rw [hnew, List.append_nil]
  exact map_applyMapping_filter_not_keyed mapping T

theorem batch_ids_vs_keys {s : StoreState} (hwf : WFState s)
    (mapping : List (String × Doc)) (r : DRow) (hr : r ∈ s.table) :
    ((((canonTable s.table s.nextId mapping).filter
        (fun t => (mapping.map Prod.fst).contains t.key)).map DRow.id).contains r.id)
      = ((mapping.map Prod.fst).contains r.key) := by
  by_cases hk : (mapping.map Prod.fst).contains r.key = true
  · rw [hk]
    rw [show ((((canonTable s.table s.nextId mapping).filter
        (fun t => (mapping.map Prod.fst).contains t.key)).map DRow.id).contains r.id)
        = true ↔ r.id ∈ (((canonTable s.table s.nextId mapping).filter
        (fun t => (mapping.map Prod.fst).contains t.key)).map DRow.id)
      from contains_iff _ _]
    refine List.mem_map.mpr ⟨applyMapping mapping r, ?_, applyMapping_id mapping r⟩
    refine List.mem_filter.mpr ⟨?_, ?_⟩
    · exact List.mem_append.mpr (Or.inl (List.mem_map_of_mem _ hr))
    · rw [applyMapping_key]
      exact hk
  · have hkf : (mapping.map Prod.fst).contains r.key = false :=
      Bool.eq_false_iff.mpr hk
    rw [hkf, contains_false_iff]
    intro hmem
    obtain ⟨b, hb, hbid⟩ := List.mem_map.mp hmem
    obtain ⟨hbct, hbk⟩ := List.mem_filter.mp hb
    rcases List.mem_append.mp hbct with h1 | h1
    · obtain ⟨t, ht, rfl⟩ := List.mem_map.mp h1
      rw [applyMapping_id] at hbid
      have hte : t = r := List.inj_on_of_nodup_map hwf.idsNodup ht hr hbid
      subst hte
      rw [applyMapping_key] at hbk
      exact hk hbk
    · unfold newRowsOf at h1
      obtain ⟨ikd, hikd, rfl⟩ := List.mem_map.mp h1
      have hbid2 : s.nextId + ikd.1 = r.id := hbid
      have hlt := hwf.idsLt r hr
      omega

/-- A batch write preserves well-formedness and the view invariant. -/
theorem put_many_inv (s : StoreState) (mapping : List (String × Doc))
    (hmnd : (mapping.map Prod.fst).Nodup) (hinv : Inv s) :
    Inv (put_many s mapping) := by
  obtain ⟨hwf, hviews⟩ := hinv
  obtain ⟨htab, hnext, hvw⟩ := put_many_closed s mapping hmnd hwf.keysNodup
  constructor
  · refine ⟨?_, ?_, ?_⟩
    · rw [htab]
      exact canonTable_keys_nodup hwf.keysNodup hmnd s.nextId
    · rw [htab]
      exact canonTable_ids_nodup hwf.idsNodup hwf.idsLt mapping
    · rw [htab, hnext]
      exact canonTable_ids_lt hwf.idsLt mapping
  · intro nv hnv hru
    rw [hvw] at hnv
    obtain ⟨nv0, hnv0, rfl⟩ := List.mem_map.mp hnv
    simp only
    rw [htab]
    refine update_view_moves_consistency nv0.2.map nv0.2.table s.table _
      ((canonTable s.table s.nextId mapping).filter
        (fun r => (mapping.map Prod.fst).contains r.key))
      (((canonTable s.table s.nextId mapping).filter
        (fun r => (mapping.map Prod.fst).contains r.key)).map
          (fun r => manyAugment r.data r.id r.key))
      ((((canonTable s.table s.nextId mapping).filter
        (fun r => (mapping.map Prod.fst).contains r.key)).map DRow.id))
      (hviews nv0 hnv0 hru)
      (map_docs_manyAugment nv0.2.map _)
      ?_ ?_
    · rw [List.map_map, List.map_map]
      apply List.map_congr_left
      intro r _
      simp only [Function.comp]
      rw [rowIdVal_manyAugment, numOf_eq]
    · have h1 : s.table.filter (fun r =>
          !(((((canonTable s.table s.nextId mapping).filter
            (fun t => (mapping.map Prod.fst).contains t.key)).map DRow.id)).contains r.id))
          = s.table.filter (fun r => !((mapping.map Prod.fst).contains r.key)) := by
        apply List.filter_congr
        intro r hr
        rw [batch_ids_vs_keys hwf mapping r hr]
      rw [h1, ← canonTable_filter_not_keyed s.table mapping s.nextId]
      refine ((List.filter_append_perm
        (fun r => (mapping.map Prod.fst).contains r.key)
        (canonTable s.table s.nextId mapping)).symm).trans ?_
      exact List.perm_append_comm

theorem inv_initState (views0 : List (String × (Doc → List Doc))) :
    Inv (initState views0) := by
  constructor
  · exact ⟨List.nodup_nil, List.nodup_nil, fun r hr => absurd hr (List.not_mem_nil r)⟩
  · intro nv hnv hru
    obtain ⟨nm, hnm, rfl⟩ := List.mem_map.mp hnv
    exact List.Perm.refl []

theorem inv_runOps (ops : List Op) :
    ∀ s : StoreState, Inv s → (∀ op ∈ ops, opValid op) → Inv (runOps s ops) := by
  induction ops with
  | nil => exact fun s hs _ => hs
  | cons op ops ih =>
      intro s hs hvalid
      have h1 : Inv (applyOp s op) := by
        cases op with
        | put k d => exact put_inv s k d hs
        | put_many mapping =>
            exact put_many_inv s mapping (hvalid _ (List.mem_cons_self _ _)) hs
      exact ih (applyOp s op) h1 (fun o ho => hvalid o (List.mem_cons_of_mem _ ho))

theorem viewSigs_update_views (docs : List Doc) (views : List (String × ViewSt)) :
    viewSigs (update_views docs views) = viewSigs views := by
  unfold viewSigs update_views
  rw [List.map_map]
  rfl

theorem viewSigs_put (s : StoreState) (k : String) (d : Doc) :
    viewSigs (put s k d).1.views = viewSigs s.views := by
  unfold put
  cases findRow s.table k with
  | none => exact viewSigs_update_views _ _
  | some row => exact viewSigs_update_views _ _

theorem viewSigs_put_many (s : StoreState) (mapping : List (String × Doc)) :
    viewSigs (put_many s mapping).views = viewSigs s.views := by
  unfold put_many
  exact viewSigs_update_views _ _

theorem viewSigs_seqPuts (mapping : List (String × Doc)) :
    ∀ s : StoreState, viewSigs (seqPuts s mapping).views = viewSigs s.views := by
  induction mapping with
  | nil => exact fun s => rfl
  | cons kd rest ih =>
      intro s
      exact (ih (put s kd.1 kd.2).1).trans (viewSigs_put s kd.1 kd.2)

theorem seqPuts_inv (mapping : List (String × Doc)) :
    ∀ s : StoreState, Inv s → Inv (seqPuts s mapping) := by
  induction mapping with
  | nil => exact fun s hs => hs
  | cons kd rest ih =>
      intro s hs
      exact ih (put s kd.1 kd.2).1 (put_inv s kd.1 kd.2 hs)

theorem contains_append {α : Type} [BEq α] [LawfulBEq α] (l1 l2 : List α) (a : α) :
    (l1 ++ l2).contains a = (l1.contains a || l2.contains a) := by
  by_cases h : a ∈ l1 ++ l2
  · rw [(contains_iff _ _).mpr h]
    rcases List.mem_append.mp h with h1 | h1
    · rw [(contains_iff _ _).mpr h1, Bool.true_or]
    · rw [(contains_iff _ _).mpr h1, Bool.or_true]
  · rw [(contains_false_iff _ _).mpr h]
    have h1 : a ∉ l1 := fun hm => h (List.mem_append.mpr (Or.inl hm))
    have h2 : a ∉ l2 := fun hm => h (List.mem_append.mpr (Or.inr hm))
    rw [(contains_false_iff _ _).mpr h1, (contains_false_iff _ _).mpr h2]
    rfl

theorem newParamsOf_cons_not_mem {T : List DRow} {k : String} (d : Doc)
    (rest : List (String × Doc)) (hfresh : k ∉ T.map DRow.key) :
    newParamsOf T ((k, d) :: rest) = (k, d) :: newParamsOf T rest := by
  unfold newParamsOf
  rw [List.filter_cons]
  have hc : ((tableKeys T).contains k) = false := (contains_false_iff _ _).mpr hfresh
  rw [if_pos (show (!((tableKeys T).contains k)) = true from by rw [hc]; rfl)]

theorem newParamsOf_cons_mem {T : List DRow} {k : String} (d : Doc)
    (rest : List (String × Doc)) (hmem : k ∈ T.map DRow.key) :
    newParamsOf T ((k, d) :: rest) = newParamsOf T rest := by
  unfold newParamsOf
  rw [List.filter_cons]
  have hc : ((tableKeys T).contains k) = true := (contains_iff _ _).mpr hmem
  rw [if_neg (show ¬((!((tableKeys T).contains k)) = true) from by rw [hc]; simp)]

theorem newParamsOf_congr_keys {T T2 : List DRow} (h : tableKeys T = tableKeys T2)
    (mapping : List (String × Doc)) : newParamsOf T mapping = newParamsOf T2 mapping := by
  unfold newParamsOf
  rw [h]

theorem newParamsOf_append_singleton {T : List DRow} {r0 : DRow}
    {rest : List (String × Doc)} (hkr : r0.key ∉ rest.map Prod.fst) :
    newParamsOf (T ++ [r0]) rest = newParamsOf T rest := by
  unfold newParamsOf
  apply List.filter_congr
  intro kd hkd
  have hne : kd.1 ≠ r0.key := by
    intro he
    exact hkr (he ▸ List.mem_map_of_mem Prod.fst hkd)
  congr 1
  have ht : tableKeys (T ++ [r0]) = tableKeys T ++ [r0.key] := by
    unfold tableKeys
    rw [List.map_append]
    rfl
  rw [ht, contains_append]
  have h0 : (([r0.key] : List String).contains kd.1) = false := by
    rw [contains_false_iff]
    intro hm
    exact hne (List.mem_singleton.mp hm)
  rw [h0, Bool.or_false]

theorem map_enumFrom_shift (L : List (String × Doc)) :
    ∀ n nid : Nat, (L.enumFrom (n + 1)).map (fun ikd : Nat × (String × Doc) =>
        (⟨nid + ikd.1, some "0", none, ikd.2.1, ikd.2.2⟩ : DRow))
      = (L.enumFrom n).map (fun ikd : Nat × (String × Doc) =>
        (⟨nid + 1 + ikd.1, some "0", none, ikd.2.1, ikd.2.2⟩ : DRow)) := by
  induction L with
  | nil => intro n nid; rfl
  | cons kd L ih =>
      intro n nid
      show (⟨nid + (n + 1), some "0", none, kd.1, kd.2⟩ : DRow)
          :: (L.enumFrom (n + 1 + 1)).map (fun ikd : Nat × (String × Doc) =>
              (⟨nid + ikd.1, some "0", none, ikd.2.1, ikd.2.2⟩ : DRow))
        = (⟨nid + 1 + n, some "0", none, kd.1, kd.2⟩ : DRow)
          :: (L.enumFrom (n + 1)).map (fun ikd : Nat × (String × Doc) =>
              (⟨nid + 1 + ikd.1, some "0", none, ikd.2.1, ikd.2.2⟩ : DRow))
      rw [ih (n + 1) nid, show nid + (n + 1) = nid + 1 + n from by omega]

theorem newRowsOf_cons_fresh {T : List DRow} {k : String} {d : Doc}
    {rest : List (String × Doc)} (hfresh : k ∉ T.map DRow.key) (nid : Nat) :
    newRowsOf T nid ((k, d) :: rest)
      = ⟨nid, some "0", none, k, d⟩ :: newRowsOf T (nid + 1) rest := by
  unfold newRowsOf
  rw [newParamsOf_cons_not_mem d rest hfresh, List.enum_cons, List.map_cons]
  congr 1
  exact map_enumFrom_shift (newParamsOf T rest) 0 nid

theorem canonTable_shift_fresh {T : List DRow} {k : String} {d : Doc}
    {rest : List (String × Doc)} (hfresh : k ∉ T.map DRow.key)
    (hkr : k ∉ rest.map Prod.fst) (nid : Nat) :
    canonTable (T ++ [⟨nid, some "0", none, k, d⟩]) (nid + 1) rest
      = canonTable T nid ((k, d) :: rest) := by
  unfold canonTable
  have h1 : (T ++ [(⟨nid, some "0", none, k, d⟩ : DRow)]).map (applyMapping rest)
      = T.map (applyMapping ((k, d) :: rest)) ++ [⟨nid, some "0", none, k, d⟩] := by
    rw [List.map_append]
    congr 1
    · apply List.map_congr_left
      intro r hr
      have hne : r.key ≠ k := fun he => hfresh (he ▸ List.mem_map_of_mem DRow.key hr)
      unfold applyMapping
      rw [show alookup r.key ((k, d) :: rest) = alookup r.key rest from by
        show (if k = r.key then some d else alookup r.key rest) = alookup r.key rest
        rw [if_neg (fun he => hne he.symm)]]
    · show [applyMapping rest (⟨nid, some "0", none, k, d⟩ : DRow)]
          = [(⟨nid, some "0", none, k, d⟩ : DRow)]
      unfold applyMapping
      rw [show alookup (⟨nid, some "0", none, k, d⟩ : DRow).key rest = none from
        alookup_eq_none_of_not_mem hkr]
  have h2 : newRowsOf (T ++ [⟨nid, some "0", none, k, d⟩]) (nid + 1) rest
      = newRowsOf T (nid + 1) rest := by
    unfold newRowsOf
    rw [newParamsOf_append_singleton hkr]
  rw [h1, h2, newRowsOf_cons_fresh hfresh nid, List.append_assoc]
  rfl

theorem canonTable_shift_update {T : List DRow} {k : String} {d : Doc}
    {rest : List (String × Doc)} (hmem : k ∈ T.map DRow.key)
    (hkr : k ∉ rest.map Prod.fst) (nid : Nat) :
    canonTable (T.map (fun r =>
        if r.key = k then ⟨r.id, some "0", r.updated, r.key, d⟩ else r)) nid rest
      = canonTable T nid ((k, d) :: rest) := by
  unfold canonTable
  have hkeys : tableKeys (T.map (fun r =>
      if r.key = k then (⟨r.id, some "0", r.updated, r.key, d⟩ : DRow) else r))
      = tableKeys T := by
    unfold tableKeys
    rw [List.map_map]
    apply List.map_congr_left
    intro r _
    by_cases h : r.key = k <;> simp [h]
  have hmapeq : (T.map (fun r =>
      if r.key = k then (⟨r.id, some "0", r.updated, r.key, d⟩ : DRow) else r)).map
        (applyMapping rest)
      = T.map (applyMapping ((k, d) :: rest)) := by
    rw [List.map_map]
    apply List.map_congr_left
    intro r _
    simp only [Function.comp]
    by_cases h : r.key = k
    · rw [if_pos h]
      unfold applyMapping
      rw [show alookup (⟨r.id, some "0", r.updated, r.key, d⟩ : DRow).key rest = none from by
        show alookup r.key rest = none
        rw [h]
        exact alookup_eq_none_of_not_mem hkr]
      rw [show alookup r.key ((k, d) :: rest) = some d from by
        show (if k = r.key then some d else alookup r.key rest) = some d
        rw [if_pos h.symm]]
    · rw [if_neg h]
      unfold applyMapping
      rw [show alookup r.key ((k, d) :: rest) = alookup r.key rest from by
        show (if k = r.key then some d else alookup r.key rest) = alookup r.key rest
        rw [if_neg (fun he => h he.symm)]]
  rw [hmapeq]
  congr 1
  unfold newRowsOf
  rw [newParamsOf_congr_keys hkeys rest, newParamsOf_cons_mem d rest hmem]

theorem seqPuts_closed (mapping : List (String × Doc)) :
    ∀ s : StoreState, (mapping.map Prod.fst).Nodup →
    (seqPuts s mapping).table = canonTable s.table s.nextId mapping ∧
    (seqPuts s mapping).nextId = s.nextId + (newParamsOf s.table mapping).length := by
  induction mapping with
  | nil =>
      intro s _
      constructor
      · show s.table = canonTable s.table s.nextId []
        unfold canonTable newRowsOf newParamsOf
        rw [show s.table.map (applyMapping ([] : List (String × Doc))) = s.table from by
          refine List.map_congr_left (fun r _ => ?_) |>.trans (List.map_id s.table)
          rfl]
        show s.table = s.table ++ []
        rw [List.append_nil]
      · rfl
  | cons kd rest ih =>
      obtain ⟨k, d⟩ := kd
      intro s hnd
      rw [List.map_cons, List.nodup_cons] at hnd
      obtain ⟨hk1, hk2⟩ := hnd
      have hseq : seqPuts s ((k, d) :: rest) = seqPuts (put s k d).1 rest := rfl
      cases hfind : findRow s.table k with
      | none =>
          have hfresh : k ∉ s.table.map DRow.key := by
            intro hm
            obtain ⟨r, hr, hreq⟩ := List.mem_map.mp hm
            exact findRow_none_spec hfind r hr hreq
          have hput : (put s k d).1
              = ⟨s.table ++ [⟨s.nextId, some "0", none, k, d⟩], s.nextId + 1,
                  update_views [putAugment d s.nextId k] s.views⟩ := by
            simp [put, hfind]
          obtain ⟨iht, ihn⟩ := ih (put s k d).1 hk2
          rw [hseq]
      
          refine ⟨?_, ?_⟩
          · rw [iht, hput]
            exact canonTable_shift_fresh hfresh hk1 s.nextId
          · rw [ihn, hput]
            show s.nextId + 1 + (newParamsOf (s.table ++ [⟨s.nextId, some "0", none, k, d⟩]) rest).length
              = s.nextId + (newParamsOf s.table ((k, d) :: rest)).length
            rw [newParamsOf_append_singleton hk1,
              newParamsOf_cons_not_mem d rest hfresh, List.length_cons]
            omega
      | some row0 =>
          have hmem : k ∈ s.table.map DRow.key := by
            obtain ⟨hr, hreq⟩ := findRow_some_spec hfind
            exact List.mem_map.mpr ⟨row0, hr, hreq⟩
          have hput : (put s k d).1
              = ⟨s.table.map (fun r =>
                  if r.key = k then ⟨r.id, some "0", r.updated, r.key, d⟩ else r),
                 s.nextId,
                 update_views [putAugment d row0.id k] s.views⟩ := by
            simp [put, hfind]
          obtain ⟨iht, ihn⟩ := ih (put s k d).1 hk2
          rw [hseq]
          refine ⟨?_, ?_⟩
          · rw [iht, hput]
            exact canonTable_shift_update hmem hk1 s.nextId
          · rw [ihn, hput]
            show s.nextId + (newParamsOf (s.table.map (fun r =>
                if r.key = k then ⟨r.id, some "0", r.updated, r.key, d⟩ else r)) rest).length
              = s.nextId + (newParamsOf s.table ((k, d) :: rest)).length
            have hkeys : tableKeys (s.table.map (fun r =>
                if r.key = k then (⟨r.id, some "0", r.updated, r.key, d⟩ : DRow) else r))
                = tableKeys s.table := by
              unfold tableKeys
              rw [List.map_map]
              apply List.map_congr_left
              intro r _
              by_cases h : r.key = k <;> simp [h]
            rw [newParamsOf_congr_keys hkeys rest, newParamsOf_cons_mem d rest hmem]

/-- C2 (amended): with the mapping's keys distinct, a well-formed store and
every view map insensitive to the extra per-put fields, `put_many mapping`
and the sequence of single `put`s in the mapping's iteration order agree on
the primary table, on the id counter, on every view's name and map, and on
every view's table up to row order. -/
theorem put_many_equals_sequential_puts (s : StoreState) (mapping : List (String × Doc))
    (hmnd : (mapping.map Prod.fst).Nodup) (hinv : Inv s)
    (hru : ∀ nv ∈ s.views, ruInsensitive nv.2.map) :
    (put_many s mapping).table = (seqPuts s mapping).table ∧
    (put_many s mapping).nextId = (seqPuts s mapping).nextId ∧
    viewSigs (put_many s mapping).views = viewSigs (seqPuts s mapping).views ∧
    List.Forall₂ List.Perm
      ((put_many s mapping).views.map (fun nv => nv.2.table))
      ((seqPuts s mapping).views.map (fun nv => nv.2.table)) := by
  obtain ⟨hwf, hvc⟩ := hinv
  obtain ⟨hmt, hmn, _⟩ := put_many_closed s mapping hmnd hwf.keysNodup
  obtain ⟨hst, hsn⟩ := seqPuts_closed mapping s hmnd
  have htab : (put_many s mapping).table = (seqPuts s mapping).table := by
    rw [hmt, hst]
  refine ⟨htab, by rw [hmn, hsn],
    (viewSigs_put_many s mapping).trans (viewSigs_seqPuts mapping s).symm, ?_⟩
  have invA := put_many_inv s mapping hmnd ⟨hwf, hvc⟩
  have invB := seqPuts_inv mapping s ⟨hwf, hvc⟩
  have hsigA : viewSigs (put_many s mapping).views = viewSigs s.views :=
    viewSigs_put_many s mapping
  have hsigB : viewSigs (seqPuts s mapping).views = viewSigs s.views :=
    viewSigs_seqPuts mapping s
  have hlenA : (put_many s mapping).views.length = s.views.length := by
    have h := congrArg List.length hsigA
    rwa [viewSigs, viewSigs, List.length_map, List.length_map] at h
  have hlenB : (seqPuts s mapping).views.length = s.views.length := by
    have h := congrArg List.length hsigB
    rwa [viewSigs, viewSigs, List.length_map, List.length_map] at h
  rw [List.forall₂_iff_get]
  constructor
  · rw [List.length_map, List.length_map, hlenA, hlenB]
  intro i h1 h2
  rw [List.length_map] at h1 h2
  rw [List.get_eq_getElem, List.get_eq_getElem, List.getElem_map, List.getElem_map]
  have hsi : i < s.views.length := by
    rw [← hlenA]
    exact h1
  have hA? : (put_many s mapping).views[i]? = some (put_many s mapping).views[i] :=
    List.getElem?_eq_getElem h1
  have hB? : (seqPuts s mapping).views[i]? = some (seqPuts s mapping).views[i] :=
    List.getElem?_eq_getElem h2
  have hs? : s.views[i]? = some s.views[i] := List.getElem?_eq_getElem hsi
  have hAi := congrArg (fun l => l[i]?) hsigA
  simp only [viewSigs, List.getElem?_map] at hAi
  rw [hA?, hs?, Option.map_some', Option.map_some'] at hAi
  have hAe := Option.some.inj hAi
  have hmapA : ((put_many s mapping).views[i]).2.map = (s.views[i]).2.map := by
    have := congrArg Prod.snd hAe
    exact this
  have hBi := congrArg (fun l => l[i]?) hsigB
  simp only [viewSigs, List.getElem?_map] at hBi
  rw [hB?, hs?, Option.map_some', Option.map_some'] at hBi
  have hBe := Option.some.inj hBi
  have hmapB : ((seqPuts s mapping).views[i]).2.map = (s.views[i]).2.map := by
    have := congrArg Prod.snd hBe
    exact this
  have hruS : ruInsensitive ((s.views[i]).2.map) := hru _ (List.getElem_mem hsi)
  have hconsA := invA.2 _ (List.getElem_mem h1) (by rw [hmapA]; exact hruS)
  have hconsB := invB.2 _ (List.getElem_mem h2) (by rw [hmapB]; exact hruS)
  unfold viewConsistent at hconsA hconsB
  rw [hmapA, htab] at hconsA
  rw [hmapB] at hconsB
  exact hconsA.trans hconsB.symm

theorem wOps_len : 0 < (runOps (initState wViews) wOps).views.length := by decide

/-- C1 (amended): after any valid sequence of writes from a fresh store,
every registered view whose map ignores the per-put `_rev`/`_updated`
fields holds exactly the rows its map currently produces for the primary
table, augmented with the owning `_id`/`_key`, up to row order. -/
theorem view_tables_exact (views0 : List (String × (Doc → List Doc))) (ops : List Op)
    (name : String) (vs : ViewSt)
    (hvalid : ∀ op ∈ ops, opValid op)
    (hmem : (name, vs) ∈ (runOps (initState views0) ops).views)
    (hru : ruInsensitive vs.map) :
    viewConsistent vs.map vs.table (runOps (initState views0) ops).table :=
  (inv_runOps ops (initState views0) (inv_initState views0) hvalid).2 (name, vs) hmem hru

theorem view_tables_exact_witness :
    viewConsistent ((runOps (initState wViews) wOps).views.get ⟨0, wOps_len⟩).2.map
      ((runOps (initState wViews) wOps).views.get ⟨0, wOps_len⟩).2.table
      (runOps (initState wViews) wOps).table :=
  view_tables_exact wViews wOps
    ((runOps (initState wViews) wOps).views.get ⟨0, wOps_len⟩).1
    ((runOps (initState wViews) wOps).views.get ⟨0, wOps_len⟩).2
    (by decide)
    (List.get_mem _ _ _)
    (fun _ => rfl)

/-- C1 counterexample to the unqualified claim: a view map that inspects
`_rev` sees it on the augmented document `put` hands it, so after one
valid `put` the view table differs from the map's output on the
`_id`/`_key`-augmented document. -/
theorem view_tables_exact_counterexample :
    ¬ viewConsistent vmapRevProbe
        ((viewTables (runOps (initState [("v", vmapRevProbe)]) [Op.put "a" []])).headD
          ("", [])).2
        (runOps (initState [("v", vmapRevProbe)]) [Op.put "a" []]).table := by
  show ¬ ((viewTables (runOps (initState [("v", vmapRevProbe)]) [Op.put "a" []])).headD
      ("", [])).2.Perm
    (expectedTable vmapRevProbe
      (runOps (initState [("v", vmapRevProbe)]) [Op.put "a" []]).table)
  decide

theorem put_many_equals_sequential_puts_witness :
    (put_many wState wMapping).table = (seqPuts wState wMapping).table ∧
    (put_many wState wMapping).nextId = (seqPuts wState wMapping).nextId ∧
    viewSigs (put_many wState wMapping).views = viewSigs (seqPuts wState wMapping).views ∧
    List.Forall₂ List.Perm
      ((put_many wState wMapping).views.map (fun nv => nv.2.table))
      ((seqPuts wState wMapping).views.map (fun nv => nv.2.table)) :=
  put_many_equals_sequential_puts wState wMapping (by decide)
    (inv_initState wViews)
    (fun nv hnv => by
      rw [show wState.views = [("v", ⟨wMap, []⟩)] from rfl] at hnv
      rw [List.mem_singleton] at hnv
      rw [hnv]
      exact fun _ => rfl)

/-- C2 counterexample to the unqualified claim: a `_rev`-probing view sees
different documents on the two paths (so the view tables differ even for
the same write order), and reordering the writes changes the ids the
backend assigns (so the primary tables differ across orders). -/
theorem put_many_vs_puts_counterexample :
    viewTables (put_many (initState [("v", vmapRevProbe)]) [("a", [])])
      ≠ viewTables (seqPuts (initState [("v", vmapRevProbe)]) [("a", [])])
    ∧ (put_many (initState []) [("a", []), ("b", [])]).table
      ≠ (seqPuts (initState []) [("b", []), ("a", [])]).table := by
  constructor
  · decide
  · decide

end DatastoreModel
